import Mathlib

/-!
Shallow embedding of the jsonDB document store (Go) and verification of the
frozen claims about it.  The definitions mirror the source files:
`utils.go` (value coercion and three-way compare), `trie.go` (the wildcard
trie), `indexs.go` (single-field and composite indexes), `document.go`
(Insert / Update / Delete / Get), `write.go` (data file and WAL record
streams, load and recovery) and the query engine (`complexquery.go`,
`Query` / `QueryComposite`).

Modelling conventions:
* Go `map[K]V` values are embedded as association lists observed only
  through lookup; iteration order of `sync.Map.Range` is the list order
  (all verified properties are order-insensitive memberships).
* Go `float64` is embedded as `Rat`.  No claim under verification touches
  NaN, infinities or rounding of non-representable values, and every
  concrete witness uses values on which the two coincide exactly.
* The dynamic universe `interface{}` is embedded as the inductive
  `GoValue`, restricted to the scalar shapes the repository actually
  stores (nil, int, int64, float64, string, time.Time, bool).  `int32`
  and `float32` are omitted: no claim distinguishes them from their
  wider family.
* A Go panic (failed type assertion) is embedded as `Option.none`.
-/

/-! ## Association lists (Go maps observed through lookup) -/

def alGet {κ α : Type} [DecidableEq κ] : List (κ × α) → κ → Option α
  | [], _ => none
  | (k, v) :: rest, key => if key = k then some v else alGet rest key

def alSet {κ α : Type} [DecidableEq κ] : List (κ × α) → κ → α → List (κ × α)
  | [], key, val => [(key, val)]
  | (k, v) :: rest, key, val =>
      if key = k then (k, val) :: rest else (k, v) :: alSet rest key val

def alErase {κ α : Type} [DecidableEq κ] : List (κ × α) → κ → List (κ × α)
  | [], _ => []
  | (k, v) :: rest, key => if key = k then rest else (k, v) :: alErase rest key

theorem alGet_alSet_self {κ α : Type} [DecidableEq κ] (l : List (κ × α)) (k : κ) (v : α) :
    alGet (alSet l k v) k = some v := by
  induction l with
  | nil => simp [alSet, alGet]
  | cons hd tl ih =>
      obtain ⟨k0, v0⟩ := hd
      by_cases h : k = k0
      · simp [alSet, alGet, h]
      · simp [alSet, alGet, h, ih]

theorem alGet_alSet_ne {κ α : Type} [DecidableEq κ] (l : List (κ × α)) (k k' : κ) (v : α)
    (h : k' ≠ k) : alGet (alSet l k v) k' = alGet l k' := by
  induction l with
  | nil => simp [alSet, alGet, h]
  | cons hd tl ih =>
      obtain ⟨k0, v0⟩ := hd
      by_cases hk : k = k0
      · subst hk
        simp [alSet, alGet, h]
      · by_cases hk' : k' = k0
        · simp [alSet, alGet, hk, hk']
        · simp [alSet, alGet, hk, hk', ih]

theorem alGet_eq_none_of_not_mem {κ α : Type} [DecidableEq κ] (l : List (κ × α)) (k : κ)
    (h : k ∉ l.map Prod.fst) : alGet l k = none := by
  induction l with
  | nil => simp [alGet]
  | cons hd tl ih =>
      obtain ⟨k0, v0⟩ := hd
      simp only [List.map_cons, List.mem_cons] at h
      push_neg at h
      simp [alGet, h.1, ih h.2]

theorem alGet_alErase_self {κ α : Type} [DecidableEq κ] (l : List (κ × α)) (k : κ)
    (hnd : (l.map Prod.fst).Nodup) : alGet (alErase l k) k = none := by
  induction l with
  | nil => simp [alErase, alGet]
  | cons hd tl ih =>
      obtain ⟨k0, v0⟩ := hd
      simp only [List.map_cons, List.nodup_cons] at hnd
      by_cases h : k = k0
      · subst h
        simpa [alErase] using alGet_eq_none_of_not_mem tl k hnd.1
      · simp [alErase, alGet, h, ih hnd.2]

theorem alGet_alErase_ne {κ α : Type} [DecidableEq κ] (l : List (κ × α)) (k k' : κ)
    (h : k' ≠ k) : alGet (alErase l k) k' = alGet l k' := by
  induction l with
  | nil => simp [alErase, alGet]
  | cons hd tl ih =>
      obtain ⟨k0, v0⟩ := hd
      by_cases hk : k = k0
      · subst hk
        simp [alErase, alGet, h]
      · by_cases hk' : k' = k0
        · simp [alErase, alGet, hk, hk']
        · simp [alErase, alGet, hk, hk', ih]

/-! ## The Go value universe (utils.go) -/

/-- Scalar values stored in documents; an embedding of the `interface{}`
universe restricted to the shapes the repository manipulates.  `gFloat64`
carries a rational standing for the IEEE double.  `gTime` carries the Unix
seconds of the `time.Time` value. -/
inductive GoValue : Type where
  | gNil : GoValue
  | gInt (n : Int) : GoValue
  | gInt64 (n : Int) : GoValue
  | gFloat64 (q : Rat) : GoValue
  | gStr (s : String) : GoValue
  | gTime (unix : Int) : GoValue
  | gBool (b : Bool) : GoValue
deriving DecidableEq, Repr

open GoValue

/-- Digits of the fractional part of `num/den` in decimal, most significant
first, stopping when the expansion terminates (fuel bounds the length). -/
def fracDigits : Nat → Nat → Nat → String
  | 0, _, _ => ""
  | fuel + 1, num, den =>
      if num = 0 then ""
      else
        let num10 := num * 10
        toString (num10 / den) ++ fracDigits fuel (num10 % den) den

/-- Decimal rendering of a rational, mirroring what Go's `%v` prints for the
float64 values under consideration: integral values print with no decimal
point (`fmt.Sprintf("%v", 30.0)` is `"30"`), terminating decimals print in
full (`"1.5"`).  (Go switches to exponent notation for very large or very
small magnitudes; no claim exercises that regime.) -/
def floatRepr (q : Rat) : String :=
  if q.den = 1 then toString q.num
  else
    let sign := if q.num < 0 then "-" else ""
    let na := q.num.natAbs
    sign ++ toString (na / q.den) ++ "." ++ fracDigits 64 (na % q.den) q.den

/-- Rendering of `fmt.Sprintf("%v", v)`, the default textual form used for
document ids, composite keys, trie words and the fallback comparison.  A nil
interface prints `"<nil>"`.  (`%v` of a `time.Time` is its human-readable
date rendering; it is embedded here as an injective tagged form since no
claim depends on its exact spelling.) -/
def goSprint : GoValue → String
  | gNil => "<nil>"
  | gInt n => toString n
  | gInt64 n => toString n
  | gFloat64 q => floatRepr q
  | gStr s => s
  | gTime t => "time " ++ toString t
  | gBool b => if b then "true" else "false"

/-- Embedding of `toFloat64` (utils.go): int, int64, float32, float64
convert; anything else yields NaN, embedded as `none` (NaN compares unequal
to everything, including itself, exactly like `none = none` fails under the
equality test used by `Query`). -/
def toFloat64 : GoValue → Option Rat
  | gInt n => some (n : Rat)
  | gInt64 n => some (n : Rat)
  | gFloat64 q => some q
  | _ => none

/-- Result universe of `toComparableValue` (utils.go): an int64, a float64,
a string, or the original value passed through unchanged. -/
inductive CompValue : Type where
  | cInt (n : Int) : CompValue
  | cFloat (q : Rat) : CompValue
  | cStr (s : String) : CompValue
  | cOther (v : GoValue) : CompValue
deriving DecidableEq, Repr

open CompValue

/-- Embedding of `toComparableValue` (utils.go): integer widths map to
int64, floats to float64, `time.Time` to its Unix seconds (an int64);
strings and anything else pass through. -/
def toComparableValue : GoValue → CompValue
  | gInt n => cInt n
  | gInt64 n => cInt n
  | gFloat64 q => cFloat q
  | gTime t => cInt t
  | gStr s => cStr s
  | v => cOther v

/-- Go converts float64 to int64 by truncation toward zero. -/
def ratTrunc (q : Rat) : Int :=
  if q < 0 then -((-q).floor) else q.floor

/-- Three-way compare of two integers as the Go source writes it. -/
def cmpInt (a b : Int) : Int :=
  if a < b then -1 else if a > b then 1 else 0

/-- Three-way compare of two rationals (float64 compare in the source). -/
def cmpRat (a b : Rat) : Int :=
  if a < b then -1 else if a > b then 1 else 0

/-- Lexicographic strict order on character lists (code points). -/
def charsLt : List Char → List Char → Bool
  | _, [] => false
  | [], _ :: _ => true
  | a :: as, b :: bs => if a = b then charsLt as bs else decide (a < b)

/-- Embedding of `strings.Compare`: bytewise comparison of the UTF-8
encodings, which coincides with code-point lexicographic order. -/
def strCompare (a b : String) : Int :=
  if charsLt a.data b.data then -1 else if charsLt b.data a.data then 1 else 0

/-- Embedding of `strings.ToLower` restricted to the character-wise case
(sufficient for every value the claims exercise). -/
def strToLower (s : String) : String :=
  ⟨s.data.map Char.toLower⟩

/-- Embedding of `compareValues` (utils.go).  The switch is on the coerced
form of the FIRST argument.  When the first coerces to int64 and the second
does not, the source runs `int64(bValue.(float64))`: a float64 second
argument is truncated toward zero, and any other type panics (embedded as
`none`).  Symmetrically for a float64 first argument (there the int64 second
argument is promoted), and for a string first argument.  Only when the first
argument coerces to none of int64/float64/string does the source fall back
to comparing `fmt.Sprintf("%v", a)` with `fmt.Sprintf("%v", b)`. -/
def compareValues (a b : GoValue) : Option Int :=
  match toComparableValue a, toComparableValue b with
  | cInt va, cInt vb => some (cmpInt va vb)
  | cInt va, cFloat qb => some (cmpInt va (ratTrunc qb))
  | cInt _, _ => none
  | cFloat qa, cFloat qb => some (cmpRat qa qb)
  | cFloat qa, cInt vb => some (cmpRat qa (vb : Rat))
  | cFloat _, _ => none
  | cStr sa, cStr sb => some (strCompare sa sb)
  | cStr _, _ => none
  | cOther _, _ => some (strCompare (goSprint a) (goSprint b))

/-- The rational 3/2, written through the raw constructor so that kernel
reduction (and hence `decide`) can evaluate with it. -/
def ratThreeHalves : Rat := ⟨3, 2, by decide, by decide⟩

/-! ## The wildcard trie (trie.go) -/

/-- Embedding of `TrieNode`: a character-keyed child map and a set of doc
ids (`sync.Map` used as a set). -/
inductive TrieNode : Type where
  | node (children : List (Char × TrieNode)) (docs : List String) : TrieNode

def TrieNode.children : TrieNode → List (Char × TrieNode)
  | .node ch _ => ch

def TrieNode.docs : TrieNode → List String
  | .node _ ds => ds

def emptyTrieNode : TrieNode := .node [] []

/-- Adding a doc id to a node's id set (`sync.Map.Store` on a set). -/
def docsAdd (id : String) (ds : List String) : List String :=
  if id ∈ ds then ds else ds ++ [id]

/-- Removing a doc id from a node's id set (`sync.Map.Delete`). -/
def docsRemove (id : String) (ds : List String) : List String :=
  ds.filter (fun x => x ≠ id)

/-- Embedding of `Trie.Insert`: walk the word; at every visited node below
the root (children are created on demand) record the id in that node's
set.  The root's own set is never touched. -/
def trieInsert (id : String) : List Char → TrieNode → TrieNode
  | [], n => n
  | c :: cs, .node ch ds =>
      let child := (alGet ch c).getD emptyTrieNode
      let child1 := TrieNode.node child.children (docsAdd id child.docs)
      TrieNode.node (alSet ch c (trieInsert id cs child1)) ds

/-- Does the word exist as a path from this node (the walk in
`Trie.Remove` that returns early when a child is missing)? -/
def hasPath : TrieNode → List Char → Bool
  | _, [] => true
  | .node ch _, c :: cs =>
      match alGet ch c with
      | none => false
      | some child => hasPath child cs

/-- A node with no children and no docs is pruned by `Trie.Remove`. -/
def isEmptyNode : TrieNode → Bool
  | .node ch ds => ch.isEmpty && ds.isEmpty

/-- The walk-back of `Trie.Remove` once the path is known to exist: delete
the id from the terminal node's set only, then prune every now-empty node
bottom-up, stopping at the first non-empty one. -/
def removeAux (id : String) : List Char → TrieNode → TrieNode
  | [], .node ch ds => .node ch (docsRemove id ds)
  | c :: cs, .node ch ds =>
      match alGet ch c with
      | none => .node ch ds
      | some child =>
          let child2 := removeAux id cs child
          if isEmptyNode child2 then .node (alErase ch c) ds
          else .node (alSet ch c child2) ds

/-- Embedding of `Trie.Remove`: if the word is not present the trie is
unchanged; otherwise the id is deleted at the terminal node and empty
nodes are pruned. -/
def trieRemove (t : TrieNode) (w : List Char) (id : String) : TrieNode :=
  if hasPath t w then removeAux id w t else t

/-- Walk to the node at the end of the word, if it exists. -/
def trieFind : TrieNode → List Char → Option TrieNode
  | n, [] => some n
  | .node ch _, c :: cs =>
      match alGet ch c with
      | none => none
      | some child => trieFind child cs

/-- Is the id recorded in the terminal node of the word? -/
def trieHasDoc (t : TrieNode) (w : List Char) (id : String) : Bool :=
  match trieFind t w with
  | none => false
  | some n => decide (id ∈ n.docs)

/-- Well-formedness along a path: the child maps on the spine of the word
have no duplicate keys (automatic for Go maps). -/
def pathWF : TrieNode → List Char → Bool
  | _, [] => true
  | .node ch _, c :: cs =>
      decide ((ch.map Prod.fst).Nodup) &&
      (match alGet ch c with
       | none => true
       | some child => pathWF child cs)

/-- Iterated insertion of the same (word, id) pair. -/
def trieInsertN (n : Nat) (w : List Char) (id : String) (t : TrieNode) : TrieNode :=
  match n with
  | 0 => t
  | m + 1 => trieInsert id w (trieInsertN m w id t)

/-! ## Documents and indexes (document.go, indexs.go) -/

/-- A document body: the `map[string]interface{}` observed through lookup. -/
abbrev Doc := List (String × GoValue)

/-- Building the updated document in `Update`: copy the old data, then write
every patch field over it (shallow overlay). -/
def overlayDoc (old patch : Doc) : Doc :=
  patch.foldl (fun acc kv => alSet acc kv.1 kv.2) old

/-- The bucket key computed by `indexDocument` (indexs.go): int family and
floats coerce to float64 via `toFloat64`, `time.Time` to its Unix seconds
(an int64), everything else is used raw.  Note this differs from
`toComparableValue`, which sends integers to int64. -/
def indexKeyOf : GoValue → GoValue
  | gInt n => gFloat64 (n : Rat)
  | gInt64 n => gFloat64 (n : Rat)
  | gFloat64 q => gFloat64 q
  | gTime t => gInt64 t
  | v => v

/-- Embedding of the `Index` struct: a field name, value buckets of doc-id
sets, and the fuzzy-search trie. -/
structure SIndex : Type where
  field : String
  values : List (GoValue × List String)
  trie : TrieNode

/-- Embedding of the `CompositeIndex` struct. -/
structure CIndex : Type where
  fields : List String
  values : List (String × List String)

/-- A registry entry is one of the two index variants. -/
inductive IdxEntry : Type where
  | single (idx : SIndex) : IdxEntry
  | comp (idx : CIndex) : IdxEntry

/-- `LoadOrStore` an id set under a key, then `Store` the id into it. -/
def bucketAdd {κ : Type} [DecidableEq κ] (vals : List (κ × List String)) (k : κ)
    (id : String) : List (κ × List String) :=
  match alGet vals k with
  | some ids => alSet vals k (docsAdd id ids)
  | none => vals ++ [(k, [id])]

/-- `Load` the id set under a key and `Delete` the id from it; the bucket
entry itself is never removed, even when it becomes empty. -/
def bucketRemove {κ : Type} [DecidableEq κ] (vals : List (κ × List String)) (k : κ)
    (id : String) : List (κ × List String) :=
  match alGet vals k with
  | some ids => alSet vals k (docsRemove id ids)
  | none => vals

/-- Is the id a member of the bucket keyed `k`? -/
def bucketMem {κ : Type} [DecidableEq κ] (vals : List (κ × List String)) (k : κ)
    (id : String) : Bool :=
  match alGet vals k with
  | some ids => decide (id ∈ ids)
  | none => false

/-- Embedding of `indexDocument`: skip if the field is missing; otherwise
add the id under the COERCED bucket key and insert the lowercased text of
the coerced value into the trie. -/
def sIndexAdd (doc : Doc) (id : String) (si : SIndex) : SIndex :=
  match alGet doc si.field with
  | none => si
  | some v =>
      let key := indexKeyOf v
      SIndex.mk si.field (bucketAdd si.values key id)
        (trieInsert id (strToLower (goSprint key)).data si.trie)

/-- Embedding of `updateIndex`: the old and new values are read RAW from
the documents (a missing field reads as the nil interface); if they differ,
the id is removed from the bucket keyed by the raw old value and added
under the raw new value, with the matching trie maintenance. -/
def sIndexUpdate (id : String) (oldDoc newDoc : Doc) (si : SIndex) : SIndex :=
  let ov := (alGet oldDoc si.field).getD gNil
  let nv := (alGet newDoc si.field).getD gNil
  if ov = nv then si
  else
    SIndex.mk si.field
      (bucketAdd (bucketRemove si.values ov id) nv id)
      (trieInsert id (strToLower (goSprint nv)).data
        (trieRemove si.trie (strToLower (goSprint ov)).data id))

/-- Embedding of `removeFromIndex`: skip if the field is missing; otherwise
remove the id from the bucket keyed by the RAW field value. -/
def sIndexRemove (id : String) (doc : Doc) (si : SIndex) : SIndex :=
  match alGet doc si.field with
  | none => si
  | some v =>
      SIndex.mk si.field (bucketRemove si.values v id)
        (trieRemove si.trie (strToLower (goSprint v)).data id)

/-- The composite key as `indexDocumentComposite` computes it: the
`-`-joined default textual forms, a missing field contributing the empty
string. -/
def compositeKeyIns (fields : List String) (doc : Doc) : String :=
  String.intercalate "-"
    (fields.map (fun f =>
      match alGet doc f with
      | some v => goSprint v
      | none => ""))

/-- The composite key as `removeFromCompositeIndex` computes it (the same
loop written a second time in the source). -/
def compositeKeyRem (fields : List String) (doc : Doc) : String :=
  String.intercalate "-"
    (fields.map (fun f =>
      match alGet doc f with
      | some v => goSprint v
      | none => ""))

/-- The composite key as `updateCompositeIndex` computes it on both the old
and the new document: `fmt.Sprintf("%v", doc.data[field])`, so a missing
field reads as the nil interface and contributes `"<nil>"`. -/
def compositeKeyUpd (fields : List String) (doc : Doc) : String :=
  String.intercalate "-"
    (fields.map (fun f => goSprint ((alGet doc f).getD gNil)))

/-- Embedding of `indexDocumentComposite`. -/
def cIndexAdd (doc : Doc) (id : String) (ci : CIndex) : CIndex :=
  CIndex.mk ci.fields (bucketAdd ci.values (compositeKeyIns ci.fields doc) id)

/-- Embedding of `updateCompositeIndex`. -/
def cIndexUpdate (id : String) (oldDoc newDoc : Doc) (ci : CIndex) : CIndex :=
  let ok := compositeKeyUpd ci.fields oldDoc
  let nk := compositeKeyUpd ci.fields newDoc
  if ok = nk then ci
  else CIndex.mk ci.fields (bucketAdd (bucketRemove ci.values ok id) nk id)

/-- Embedding of `removeFromCompositeIndex`. -/
def cIndexRemove (id : String) (doc : Doc) (ci : CIndex) : CIndex :=
  CIndex.mk ci.fields (bucketRemove ci.values (compositeKeyRem ci.fields doc) id)

def entryInsert (doc : Doc) (id : String) : IdxEntry → IdxEntry
  | .single si => .single (sIndexAdd doc id si)
  | .comp ci => .comp (cIndexAdd doc id ci)

def entryUpdate (id : String) (oldDoc newDoc : Doc) : IdxEntry → IdxEntry
  | .single si => .single (sIndexUpdate id oldDoc newDoc si)
  | .comp ci => .comp (cIndexUpdate id oldDoc newDoc ci)

def entryRemove (id : String) (doc : Doc) : IdxEntry → IdxEntry
  | .single si => .single (sIndexRemove id doc si)
  | .comp ci => .comp (cIndexRemove id doc ci)

/-- Walking every registered index with a per-entry maintenance step
(`db.indexes.Range` in the mutation paths). -/
def indexesMap (f : IdxEntry → IdxEntry) (idxs : List (String × IdxEntry)) :
    List (String × IdxEntry) :=
  idxs.map (fun kv => (kv.1, f kv.2))

/-! ## The database state and its mutations (document.go, write.go) -/

/-- A WAL record: operation kind, id, document body. -/
structure WalRec : Type where
  operation : String
  id : String
  document : Doc

/-- The `Database` state observed at quiescent points: the primary store,
the index registry, the atomic doc count, the data-file record stream (in
the order the sequential, drained execution appends them), the WAL record
stream, and the configured primary key.  File framing is byte-exact only in
`readStream` below; here records are kept decoded, since MessagePack
round-trips them unchanged. -/
structure DB : Type where
  data : List (String × Doc)
  indexes : List (String × IdxEntry)
  docCount : Int
  dataFile : List (String × Doc)
  wal : List WalRec
  primaryKey : String

def emptyDB (pk : String) : DB := DB.mk [] [] 0 [] [] pk

/-- Embedding of the core of `Insert` once a document map is in hand:
primary-key check, duplicate check, WAL append, then (only after a
successful WAL write) store / index / count mutation and the data-file
append.  `walOk` stands for whether the WAL write succeeds; on failure the
error returns before any in-memory mutation (the WAL file itself may be
left with partial bytes, outside this record-level embedding). -/
def insertDoc (db : DB) (doc : Doc) (walOk : Bool) : Option String × DB :=
  match alGet doc db.primaryKey with
  | none => (some "primary key not found in document", db)
  | some pkv =>
      let idStr := goSprint pkv
      match alGet db.data idStr with
      | some _ => (some "document already exists", db)
      | none =>
          if walOk then
            (none, DB.mk
              (alSet db.data idStr doc)
              (indexesMap (entryInsert doc idStr) db.indexes)
              (db.docCount + 1)
              (db.dataFile ++ [(idStr, doc)])
              (db.wal ++ [WalRec.mk "INSERT" idStr doc])
              db.primaryKey)
          else (some "failed to write to WAL", db)

/-- The three accepted shapes of `Insert`'s argument. -/
inductive InsertInput : Type where
  | asMap (d : Doc) : InsertInput
  | asJson (s : String) : InsertInput
  | other : InsertInput

/-- Embedding of `Insert` (document.go): a map is used directly, a string
is JSON-decoded by the external decoder `decode` (failure is an error),
and any other input shape is a type error. -/
def dbInsert (db : DB) (input : InsertInput) (decode : String → Option Doc)
    (walOk : Bool) : Option String × DB :=
  match input with
  | .asMap d => insertDoc db d walOk
  | .asJson s =>
      match decode s with
      | none => (some "failed to parse JSON string", db)
      | some d => insertDoc db d walOk
  | .other => (some "unsupported input type", db)

/-- Embedding of `Update` at a quiescent point (the CAS succeeds on the
first try and the WAL write succeeds): overlay the patch over the old data,
swap the document, append the WAL record, update every index with the
(old, new) pair and schedule the data-file append.  The doc count is not
touched. -/
def dbUpdate (db : DB) (id : String) (patch : Doc) : Option String × DB :=
  match alGet db.data id with
  | none => (some "document not found", db)
  | some oldDoc =>
      let newData := overlayDoc oldDoc patch
      (none, DB.mk
        (alSet db.data id newData)
        (indexesMap (entryUpdate id oldDoc newData) db.indexes)
        db.docCount
        (db.dataFile ++ [(id, newData)])
        (db.wal ++ [WalRec.mk "UPDATE" id newData])
        db.primaryKey)

/-- Embedding of `Delete`: a missing id is a soft success that changes
nothing; otherwise the entry is removed, the WAL record appended, every
index updated and the count decremented.  NOTHING is appended to the data
file (deletions are never reflected there). -/
def dbDelete (db : DB) (id : String) : Option String × DB :=
  match alGet db.data id with
  | none => (none, db)
  | some doc =>
      (none, DB.mk
        (alErase db.data id)
        (indexesMap (entryRemove id doc) db.indexes)
        (db.docCount - 1)
        db.dataFile
        (db.wal ++ [WalRec.mk "DELETE" id []])
        db.primaryKey)

/-- Embedding of `Get`: the stored mapping and a presence flag, collapsed
to an `Option`. -/
def dbGet (db : DB) (id : String) : Option Doc := alGet db.data id

/-- Embedding of `Count`. -/
def dbCount (db : DB) : Int := db.docCount

/-- Embedding of `CreateIndex`'s population loop over the existing store. -/
def buildSIndex (f : String) (data : List (String × Doc)) : SIndex :=
  data.foldl (fun si kv => sIndexAdd kv.2 kv.1 si) (SIndex.mk f [] emptyTrieNode)

/-- Embedding of `CreateIndex`: a no-op warning when the registry already
holds ANY entry under the field name; otherwise register a fresh single
index and index every stored document into it. -/
def dbCreateIndex (db : DB) (f : String) : DB :=
  match alGet db.indexes f with
  | some _ => db
  | none =>
      DB.mk db.data (db.indexes ++ [(f, .single (buildSIndex f db.data))])
        db.docCount db.dataFile db.wal db.primaryKey

def buildCIndex (fields : List String) (data : List (String × Doc)) : CIndex :=
  data.foldl (fun ci kv => cIndexAdd kv.2 kv.1 ci) (CIndex.mk fields [])

/-- Embedding of `CreateCompositeIndex`: the registry key is the
`-`-joined field list; a no-op warning when any entry already sits under
that key. -/
def dbCreateCompositeIndex (db : DB) (fields : List String) : DB :=
  let indexKey := String.intercalate "-" fields
  match alGet db.indexes indexKey with
  | some _ => db
  | none =>
      DB.mk db.data (db.indexes ++ [(indexKey, .comp (buildCIndex fields db.data))])
        db.docCount db.dataFile db.wal db.primaryKey

/-! ## Quiescent operation sequences and restart (write.go) -/

/-- One acknowledged client operation. -/
inductive Op : Type where
  | opInsert (doc : Doc) : Op
  | opUpdate (id : String) (patch : Doc) : Op
  | opDelete (id : String) : Op
  | opCreateIndex (f : String) : Op
  | opCreateCompositeIndex (fields : List String) : Op

/-- Applying one operation at a quiescent point; a failed operation leaves
the state unchanged (its error is returned to the caller). -/
def runOp (db : DB) : Op → DB
  | .opInsert d => (insertDoc db d true).2
  | .opUpdate id p => (dbUpdate db id p).2
  | .opDelete id => (dbDelete db id).2
  | .opCreateIndex f => dbCreateIndex db f
  | .opCreateCompositeIndex fs => dbCreateCompositeIndex db fs

def runOps (pk : String) (ops : List Op) : DB := ops.foldl runOp (emptyDB pk)

/-- Embedding of `loadData`'s effect on the store: records are installed
in file order with `Store`, so the last record for an id wins. -/
def loadStore (recs : List (String × Doc)) : List (String × Doc) :=
  recs.foldl (fun m r => alSet m r.1 r.2) []

/-- Embedding of `recoverFromWAL`'s effect on the store: INSERT and UPDATE
records `Store`, DELETE records `Delete`; the doc count is NOT adjusted. -/
def walReplay (data : List (String × Doc)) (recs : List WalRec) : List (String × Doc) :=
  recs.foldl
    (fun m r =>
      if r.operation = "INSERT" ∨ r.operation = "UPDATE" then alSet m r.id r.document
      else if r.operation = "DELETE" then alErase m r.id
      else m)
    data

/-- Embedding of Close followed by `NewDatabase` on the same directory:
Close drains the writers and keeps both files; reopening truncates the WAL
(O_TRUNC) BEFORE replay, loads the preserved data file record by record — 
bumping the doc count once per RECORD — and then replays the now-empty
WAL.  Indexes are not persisted and start empty. -/
def reopenDB (db : DB) : DB :=
  DB.mk (walReplay (loadStore db.dataFile) []) [] (db.dataFile.length : Int)
    db.dataFile [] db.primaryKey

/-! ## Query engine (unnamed query file, complexquery.go) -/

/-- Embedding of `QueryComposite`: joined registry key; a missing entry is
a warning plus empty result; an entry of the single-index variant fails the
type switch and likewise yields the empty result, with NO fallback scan;
otherwise one lookup by the joined textual forms of the query values,
resolved through `Get`. -/
def dbQueryComposite (db : DB) (fields : List String) (values : List GoValue) : List Doc :=
  let indexKey := String.intercalate "-" fields
  match alGet db.indexes indexKey with
  | none => []
  | some (.single _) => []
  | some (.comp ci) =>
      let compositeKey := String.intercalate "-" (values.map goSprint)
      match alGet ci.values compositeKey with
      | none => []
      | some ids => ids.filterMap (fun id => alGet db.data id)

/-- Back-embedding of `toComparableValue`'s result into the value universe
(the coerced values `RangeQuery` hands back to `compareValues`). -/
def compInj : CompValue → GoValue
  | cInt n => gInt64 n
  | cFloat q => gFloat64 q
  | cStr s => gStr s
  | cOther v => v

/-- The guard `compareValues(v, min) >= 0 && compareValues(v, max) <= 0`
with Go's short-circuit evaluation; `none` is a panic escaping the query. -/
def rangeCond (v minv maxv : GoValue) : Option Bool :=
  match compareValues v minv with
  | none => none
  | some a =>
      if a ≥ 0 then
        match compareValues v maxv with
        | none => none
        | some b => some (decide (b ≤ 0))
      else some false

/-- The index path of `RangeQuery`: every bucket whose coerced key falls in
the closed interval contributes its ids, resolved through `Get`. -/
def rqBuckets (db : DB) (minv maxv : GoValue) :
    List (GoValue × List String) → Option (List Doc)
  | [] => some []
  | (k, ids) :: rest =>
      match rangeCond (compInj (toComparableValue k)) minv maxv with
      | none => none
      | some true =>
          match rqBuckets db minv maxv rest with
          | none => none
          | some docs => some (ids.filterMap (fun id => alGet db.data id) ++ docs)
      | some false => rqBuckets db minv maxv rest

/-- The scan path of `RangeQuery`: every document whose field is present
and falls in the closed interval contributes a copy of its mapping (the
copy is lookup-identical to the original and embedded as the same list). -/
def rqScan (minv maxv : GoValue) (f : String) :
    List (String × Doc) → Option (List Doc)
  | [] => some []
  | (_, d) :: rest =>
      match alGet d f with
      | none => rqScan minv maxv f rest
      | some v =>
          match rangeCond (compInj (toComparableValue v)) minv maxv with
          | none => none
          | some true =>
              match rqScan minv maxv f rest with
              | none => none
              | some docs => some (d :: docs)
          | some false => rqScan minv maxv f rest

/-- Embedding of `RangeQuery` (complexquery.go): coerce the bounds, then
either iterate the single index's buckets (an entry of the composite
variant fails the type switch and yields the empty result) or scan the
store.  `none` is a panic raised by `compareValues`. -/
def dbRangeQuery (db : DB) (f : String) (mn mx : GoValue) : Option (List Doc) :=
  let minv := compInj (toComparableValue mn)
  let maxv := compInj (toComparableValue mx)
  match alGet db.indexes f with
  | some (.single si) => rqBuckets db minv maxv si.values
  | some (.comp _) => some []
  | none => rqScan minv maxv f db.data

/-! ## The length-prefixed record framing (write.go) -/

/-- The 4-byte little-endian unsigned record length. -/
def decodeLE4 (b0 b1 b2 b3 : Nat) : Nat :=
  b0 + 256 * b1 + 65536 * b2 + 16777216 * b3

/-- Fuel-indexed embedding of the reader loop shared by `loadData` and
`recoverFromWAL` over the raw byte stream.  Per iteration: `binary.Read`
of the 4-byte length header — zero bytes available is `io.EOF` and breaks
the loop cleanly, 1–3 bytes is `io.ErrUnexpectedEOF` and returns an error;
then `io.ReadFull` of the body — fewer bytes than the declared length is
an error aborting the load.  `none` is an error; `some` carries the record
bodies.  Each successful iteration consumes at least four bytes, so fuel
equal to the stream length (as supplied by `readStream`) never runs out;
the fuel-exhaustion branch is unreachable. -/
def readStreamAux : Nat → List Nat → Option (List (List Nat))
  | _, [] => some []
  | fuel + 1, b0 :: b1 :: b2 :: b3 :: rest =>
      let size := decodeLE4 b0 b1 b2 b3
      if size ≤ rest.length then
        match readStreamAux fuel (rest.drop size) with
        | none => none
        | some rs => some (rest.take size :: rs)
      else none
  | _ + 1, _ => none
  | 0, _ :: _ => none

/-- The record stream reader: loops until end of file. -/
def readStream (bs : List Nat) : Option (List (List Nat)) :=
  readStreamAux bs.length bs

/-! ## Observers used by concrete refutations -/

/-- Is a single-field index registered under this field name? -/
def hasSingleIndex (db : DB) (f : String) : Bool :=
  match alGet db.indexes f with
  | some (.single _) => true
  | _ => false

/-- Membership of an id in a given bucket of the single-field index
registered under `f`. -/
def singleBucketMem (db : DB) (f : String) (k : GoValue) (id : String) : Bool :=
  match alGet db.indexes f with
  | some (.single si) => bucketMem si.values k id
  | _ => false

/-- Membership of an id in a given bucket of the composite index
registered under the joined key. -/
def compositeBucketMem (db : DB) (key bucketKey id : String) : Bool :=
  match alGet db.indexes key with
  | some (.comp ci) => bucketMem ci.values bucketKey id
  | _ => false

/-! ## Claim C3: the three-way compare of range queries -/

/-- C3, counterexample.  The claim states that an integer compared with a
float is ordered by promoting the integer to float, so that
compare(1, 1.5) is less (i.e. -1), and that every other mixed pair (an
integer against a string, for instance) falls back to textual comparison,
"returning a result rather than failing".  In the source, when the FIRST
argument coerces to int64 the second is forced through the type assertion
`bValue.(float64)`: a float is truncated toward zero — so compare(1, 1.5)
returns 0, "equal" — and a string makes the assertion panic rather than
return. -/
theorem c3_compare_counterexample :
    compareValues (gInt 1) (gFloat64 ratThreeHalves) = some 0 ∧
    compareValues (gInt 1) (gStr "x") = none := by
  decide

/-- C3, amended.  The compare behaves as claimed on same-class pairs
(integer × integer and float × float numerically, string × string by
code-point order), and `int`, `int64` and `time.Time` all coerce to the
same int64 class.  But the mixed rules depend on the argument order: with
an int64 first, a float64 second is TRUNCATED toward zero (not the integer
promoted); with a float64 first, an int64 second is promoted.  A first
argument coercing to int64 or string paired with a different coerced class
panics instead of returning, and only a first argument outside all three
classes falls back to comparing the two default textual forms. -/
theorem c3_compare_amended :
    (∀ a b : Int, compareValues (gInt64 a) (gInt64 b) = some (cmpInt a b)) ∧
    (∀ p q : Rat, compareValues (gFloat64 p) (gFloat64 q) = some (cmpRat p q)) ∧
    (∀ s t : String, compareValues (gStr s) (gStr t) = some (strCompare s t)) ∧
    (∀ n : Int, ∀ v : GoValue,
      compareValues (gInt n) v = compareValues (gInt64 n) v ∧
      compareValues (gTime n) v = compareValues (gInt64 n) v ∧
      compareValues v (gInt n) = compareValues v (gInt64 n)) ∧
    (∀ a : Int, ∀ q : Rat,
      compareValues (gInt64 a) (gFloat64 q) = some (cmpInt a (ratTrunc q))) ∧
    (∀ q : Rat, ∀ a : Int,
      compareValues (gFloat64 q) (gInt64 a) = some (cmpRat q (a : Rat))) ∧
    (∀ a : Int, ∀ s : String,
      compareValues (gInt64 a) (gStr s) = none ∧
      compareValues (gStr s) (gInt64 a) = none ∧
      compareValues (gFloat64 (a : Rat)) (gStr s) = none ∧
      compareValues (gStr s) (gFloat64 (a : Rat)) = none) ∧
    (∀ b : Bool, ∀ v : GoValue,
      compareValues (gBool b) v
        = some (strCompare (goSprint (gBool b)) (goSprint v))) ∧
    (∀ v : GoValue,
      compareValues gNil v = some (strCompare (goSprint gNil) (goSprint v))) := by
  refine ⟨fun a b => rfl, fun p q => rfl, fun s t => rfl, ?_, fun a q => rfl,
    fun q a => rfl, fun a s => ⟨rfl, rfl, rfl, rfl⟩, ?_, ?_⟩
  · intro n v
    refine ⟨?_, ?_, ?_⟩ <;> cases v <;> rfl
  · intro b v
    cases v <;> rfl
  · intro v
    cases v <;> rfl

/-! ## Claim C6: composite keys -/

/-- C6, counterexample.  The claim states the composite key is computed
identically on initial indexing, on both sides of an update, and on
removal, with a missing field contributing the empty string.  The update
path instead renders a missing field as `"<nil>"` (the `%v` form of the
nil interface), so after inserting a document that lacks one of the
composite fields and then updating it, the id is left in the stale bucket
`"x-"` that insertion used, and the update moved nothing out of it. -/
theorem c6_composite_key_counterexample :
    compositeKeyIns ["a", "b"] [("a", gStr "x")] = "x-" ∧
    compositeKeyUpd ["a", "b"] [("a", gStr "x")] = "x-<nil>" ∧
    compositeKeyUpd ["a", "b"] [("a", gStr "x")]
      ≠ compositeKeyIns ["a", "b"] [("a", gStr "x")] ∧
    compositeBucketMem
      (runOps "id" [.opCreateCompositeIndex ["a", "b"],
        .opInsert [("id", gStr "1"), ("a", gStr "x")],
        .opUpdate "1" [("a", gStr "y")]])
      "a-b" "x-" "1" = true ∧
    dbGet
      (runOps "id" [.opCreateCompositeIndex ["a", "b"],
        .opInsert [("id", gStr "1"), ("a", gStr "x")],
        .opUpdate "1" [("a", gStr "y")]])
      "1" = some [("id", gStr "1"), ("a", gStr "y")] := by
  decide

/-- C6, amended.  The initial-indexing and removal paths compute the same
`-`-joined key with a missing field contributing the empty string; the
update path renders a missing field as `"<nil>"` instead, so the four
computations agree — and an update therefore moves the id consistently
with where insertion placed it — exactly when every composite field is
present in the documents involved. -/
theorem c6_composite_key_amended :
    (∀ (fields : List String) (doc : Doc),
      compositeKeyRem fields doc = compositeKeyIns fields doc) ∧
    (∀ (fields : List String) (doc : Doc),
      (∀ f ∈ fields, (alGet doc f).isSome) →
      compositeKeyUpd fields doc = compositeKeyIns fields doc) := by
  constructor
  · intro fields doc
    rfl
  · intro fields doc h
    unfold compositeKeyUpd compositeKeyIns
    congr 1
    apply List.map_congr_left
    intro f hf
    rcases hx : alGet doc f with _ | v
    · exact absurd (hx ▸ h f hf) (by simp)
    · simp [hx]

/-- C6, witness for the amended theorem at a concrete document containing
every composite field. -/
theorem c6_composite_key_amended_witness :
    compositeKeyUpd ["a", "b"] [("a", gStr "p"), ("b", gInt 2)]
      = compositeKeyIns ["a", "b"] [("a", gStr "p"), ("b", gInt 2)] :=
  c6_composite_key_amended.2 ["a", "b"] [("a", gStr "p"), ("b", gInt 2)]
    (by decide)

/-! ## Claim C7: trie insert and remove -/

theorem docsAdd_mem_self (id : String) (ds : List String) : id ∈ docsAdd id ds := by
  unfold docsAdd
  by_cases h : id ∈ ds <;> simp [h]

theorem docsAdd_idem (id : String) (ds : List String) :
    docsAdd id (docsAdd id ds) = docsAdd id ds := by
  unfold docsAdd
  by_cases h : id ∈ ds <;> simp [h]

theorem trieNode_eta (t : TrieNode) : TrieNode.node t.children t.docs = t := by
  cases t
  rfl

theorem alSet_alSet {κ α : Type} [DecidableEq κ] (l : List (κ × α)) (k : κ) (v v' : α) :
    alSet (alSet l k v) k v' = alSet l k v' := by
  induction l with
  | nil => simp [alSet]
  | cons hd tl ih =>
      obtain ⟨k0, v0⟩ := hd
      by_cases h : k = k0
      · simp [alSet, h]
      · simp [alSet, h, ih]

theorem mem_keys_alSet {κ α : Type} [DecidableEq κ] (l : List (κ × α)) (k : κ) (v : α)
    (x : κ) (h : x ∈ (alSet l k v).map Prod.fst) : x ∈ l.map Prod.fst ∨ x = k := by
  induction l with
  | nil => simpa [alSet] using h
  | cons hd tl ih =>
      obtain ⟨k0, v0⟩ := hd
      by_cases hk : k = k0
      · subst hk
        simp only [alSet, if_pos rfl, List.map_cons] at h
        exact Or.inl (by simpa using h)
      · simp only [alSet, if_neg hk, List.map_cons, List.mem_cons] at h
        rcases h with h | h
        · exact Or.inl (by simp [h])
        · rcases ih h with h' | h'
          · exact Or.inl (by simp [h'])
          · exact Or.inr h'

theorem nodupKeys_alSet {κ α : Type} [DecidableEq κ] (l : List (κ × α)) (k : κ) (v : α)
    (h : (l.map Prod.fst).Nodup) : ((alSet l k v).map Prod.fst).Nodup := by
  induction l with
  | nil => simp [alSet]
  | cons hd tl ih =>
      obtain ⟨k0, v0⟩ := hd
      simp only [List.map_cons, List.nodup_cons] at h
      by_cases hk : k = k0
      · subst hk
        simpa [alSet] using h
      · simp only [alSet, if_neg hk, List.map_cons, List.nodup_cons]
        refine ⟨fun hmem => ?_, ih h.2⟩
        rcases mem_keys_alSet tl k v k0 hmem with h' | h'
        · exact h.1 h'
        · exact hk h'.symm

theorem trieInsert_docs (id : String) (w : List Char) (t : TrieNode) :
    (trieInsert id w t).docs = t.docs := by
  cases w with
  | nil => rfl
  | cons c cs => cases t with
      | node ch ds => rfl

theorem trieInsert_cons_eq (id : String) (c : Char) (cs : List Char)
    (ch : List (Char × TrieNode)) (ds : List String) :
    trieInsert id (c :: cs) (TrieNode.node ch ds)
      = TrieNode.node (alSet ch c (trieInsert id cs
          (TrieNode.node ((alGet ch c).getD emptyTrieNode).children
            (docsAdd id ((alGet ch c).getD emptyTrieNode).docs)))) ds := rfl

theorem hasPath_trieInsert (id : String) :
    ∀ (w : List Char) (t : TrieNode), hasPath (trieInsert id w t) w = true := by
  intro w
  induction w with
  | nil => intro t; cases t; rfl
  | cons c cs ih =>
      intro t
      cases t with
      | node ch ds =>
          rw [trieInsert_cons_eq]
          simp only [hasPath, alGet_alSet_self]
          exact ih _

theorem pathWF_irrel_docs (ch : List (Char × TrieNode)) (ds ds2 : List String)
    (cs : List Char) : pathWF (.node ch ds) cs = pathWF (.node ch ds2) cs := by
  cases cs <;> rfl

theorem pathWF_emptyTrieNode (cs : List Char) : pathWF emptyTrieNode cs = true := by
  cases cs <;> simp [pathWF, emptyTrieNode, alGet]

theorem trieRemove_of_hasPath (t : TrieNode) (w : List Char) (id : String)
    (h : hasPath t w = true) : trieRemove t w id = removeAux id w t := by
  unfold trieRemove
  rw [h]
  simp

theorem trieInsert_idem (id : String) :
    ∀ (w : List Char) (t : TrieNode),
      trieInsert id w (trieInsert id w t) = trieInsert id w t := by
  intro w
  induction w with
  | nil => intro t; rfl
  | cons c cs ih =>
      intro t
      cases t with
      | node ch ds =>
          rw [trieInsert_cons_eq, trieInsert_cons_eq, alGet_alSet_self]
          simp only [Option.getD_some]
          set A := trieInsert id cs
            (TrieNode.node ((alGet ch c).getD emptyTrieNode).children
              (docsAdd id ((alGet ch c).getD emptyTrieNode).docs)) with hA
          have hAdocs : A.docs = docsAdd id ((alGet ch c).getD emptyTrieNode).docs := by
            rw [hA, trieInsert_docs]
            rfl
          have h3 : TrieNode.node A.children (docsAdd id A.docs) = A := by
            rw [hAdocs, docsAdd_idem, ← hAdocs, trieNode_eta]
          rw [h3]
          have h4 : trieInsert id cs A = A := by
            rw [hA]
            exact ih _
          rw [h4, alSet_alSet]

theorem trieInsertN_of_pos (w : List Char) (id : String) (t : TrieNode) :
    ∀ n : Nat, 1 ≤ n → trieInsertN n w id t = trieInsert id w t := by
  intro n
  induction n with
  | zero => intro h; omega
  | succ m ih =>
      intro _
      by_cases hm : 1 ≤ m
      · simp only [trieInsertN, ih hm, trieInsert_idem]
      · have : m = 0 := by omega
        subst this
        rfl

theorem docsRemove_not_mem (id : String) (ds : List String) :
    id ∉ docsRemove id ds := by
  unfold docsRemove
  simp

theorem remove_after_insert (id : String) :
    ∀ (w : List Char) (t : TrieNode), pathWF t w = true →
      trieHasDoc (trieRemove (trieInsert id w t) w id) w id = false := by
  intro w
  induction w with
  | nil =>
      intro t _
      cases t with
      | node ch ds =>
          simp only [trieInsert, trieRemove, hasPath, if_pos rfl, removeAux, trieFind,
            trieHasDoc, TrieNode.docs]
          simpa using docsRemove_not_mem id ds
  | cons c cs ih =>
      intro t hwf
      cases t with
      | node ch ds =>
          simp only [pathWF, Bool.and_eq_true, decide_eq_true_eq] at hwf
          have hnodup : (ch.map Prod.fst).Nodup := hwf.1
          -- the spine below the inserted child is still well-formed
          have hwfChild1 :
              pathWF (TrieNode.node ((alGet ch c).getD emptyTrieNode).children
                (docsAdd id ((alGet ch c).getD emptyTrieNode).docs)) cs = true := by
            rcases hx : alGet ch c with _ | child
            · calc pathWF (TrieNode.node emptyTrieNode.children
                      (docsAdd id emptyTrieNode.docs)) cs
                  = pathWF (TrieNode.node emptyTrieNode.children emptyTrieNode.docs) cs :=
                    pathWF_irrel_docs _ _ _ cs
                _ = true := by rw [trieNode_eta]; exact pathWF_emptyTrieNode cs
            · have h2 := hwf.2
              rw [hx] at h2
              calc pathWF (TrieNode.node child.children (docsAdd id child.docs)) cs
                  = pathWF (TrieNode.node child.children child.docs) cs :=
                    pathWF_irrel_docs _ _ _ cs
                _ = true := by rw [trieNode_eta]; exact h2
          rw [trieInsert_cons_eq]
          set child1 : TrieNode :=
            TrieNode.node ((alGet ch c).getD emptyTrieNode).children
              (docsAdd id ((alGet ch c).getD emptyTrieNode).docs) with hchild1
          set child2 : TrieNode := trieInsert id cs child1 with hchild2
          have hpath2 : hasPath child2 cs = true := by
            rw [hchild2]
            exact hasPath_trieInsert id cs child1
          have hrec : trieHasDoc (removeAux id cs child2) cs id = false := by
            have hr := ih child1 hwfChild1
            rw [← hchild2, trieRemove_of_hasPath _ _ _ hpath2] at hr
            exact hr
          have htop : hasPath (TrieNode.node (alSet ch c child2) ds) (c :: cs) = true := by
            simp only [hasPath, alGet_alSet_self]
            exact hpath2
          rw [trieRemove_of_hasPath _ _ _ htop]
          have hstep : removeAux id (c :: cs) (TrieNode.node (alSet ch c child2) ds)
              = if isEmptyNode (removeAux id cs child2) = true
                then TrieNode.node (alErase (alSet ch c child2) c) ds
                else TrieNode.node (alSet (alSet ch c child2) c (removeAux id cs child2))
                  ds := by
            simp only [removeAux, alGet_alSet_self]
          rw [hstep]
          by_cases hempty : isEmptyNode (removeAux id cs child2) = true
          · rw [if_pos hempty]
            have hnodup2 : ((alSet ch c child2).map Prod.fst).Nodup :=
              nodupKeys_alSet ch c child2 hnodup
            simp [trieHasDoc, trieFind, alGet_alErase_self _ _ hnodup2]
          · rw [if_neg hempty]
            have hfindstep :
                trieHasDoc (TrieNode.node (alSet (alSet ch c child2) c
                    (removeAux id cs child2)) ds) (c :: cs) id
                  = trieHasDoc (removeAux id cs child2) cs id := by
              unfold trieHasDoc
              simp only [trieFind, alGet_alSet_self]
            rw [hfindstep]
            exact hrec

/-- C7, counterexample.  The claim states that N inserts of (word, id)
followed by one remove leave the id present in the terminal node's id set
iff N > 1.  Taking N = 2, the claim asserts presence; but `Insert` records
the id in a SET (`sync.Map` keyed by the id), so repeated inserts are
idempotent and the single `Remove` deletes the id: it is absent. -/
theorem c7_trie_counterexample :
    trieHasDoc (trieRemove (trieInsertN 2 "ab".data "x" emptyTrieNode) "ab".data "x")
      "ab".data "x" = false := by
  decide

/-- C7, amended.  Insertion of (word, id) is idempotent on the id sets, so
for EVERY N ≥ 1, performing N inserts followed by one remove leaves the id
absent from the terminal node's id set (the node may even be pruned away),
for any starting trie whose child maps along the word have no duplicate
keys (automatic for tries built from Go maps). -/
theorem c7_trie_amended (t : TrieNode) (w : List Char) (id : String) (n : Nat)
    (hn : 1 ≤ n) (hwf : pathWF t w = true) :
    trieHasDoc (trieRemove (trieInsertN n w id t) w id) w id = false := by
  rw [trieInsertN_of_pos w id t n hn]
  exact remove_after_insert id w t hwf

/-- C7, witness: the amended theorem applied at a concrete trie, word, id
and repetition count. -/
theorem c7_trie_amended_witness :
    trieHasDoc (trieRemove (trieInsertN 3 "go".data "y" emptyTrieNode) "go".data "y")
      "go".data "y" = false :=
  c7_trie_amended emptyTrieNode "go".data "y" 3 (by decide) (by decide)

/-! ## Claim C9: the record stream reader -/

/-- C9, counterexample.  The claim states that a short read while reading
the 4-byte length header at end-of-file terminates the load cleanly with
success.  A one-byte trailing stream IS such a short read, and the load
fails: `binary.Read` surfaces `io.ErrUnexpectedEOF`, which is not equal to
`io.EOF`, so `loadData` / `recoverFromWAL` return an error rather than
breaking out of the loop. -/
theorem c9_stream_counterexample : readStream [7] = none := by decide

theorem readStreamAux_nil (fuel : Nat) : readStreamAux fuel [] = some [] := by
  cases fuel <;> rfl

theorem readStreamAux_fuel :
    ∀ (fuel fuel' : Nat) (bs : List Nat), bs.length ≤ fuel → bs.length ≤ fuel' →
      readStreamAux fuel bs = readStreamAux fuel' bs := by
  intro fuel
  induction fuel with
  | zero =>
      intro fuel' bs h _
      have : bs = [] := List.length_eq_zero.mp (Nat.le_zero.mp h)
      subst this
      rw [readStreamAux_nil, readStreamAux_nil]
  | succ f ih =>
      intro fuel' bs h h'
      match fuel', bs with
      | _, [] => rw [readStreamAux_nil, readStreamAux_nil]
      | 0, b :: rest => simp at h'
      | f' + 1, [b0] => rfl
      | f' + 1, [b0, b1] => rfl
      | f' + 1, [b0, b1, b2] => rfl
      | f' + 1, b0 :: b1 :: b2 :: b3 :: rest =>
          simp only [readStreamAux]
          by_cases hsz : decodeLE4 b0 b1 b2 b3 ≤ rest.length
          · rw [if_pos hsz, if_pos hsz]
            have hlen : (rest.drop (decodeLE4 b0 b1 b2 b3)).length ≤ f := by
              simp only [List.length_cons] at h
              simp [List.length_drop]
              omega
            have hlen' : (rest.drop (decodeLE4 b0 b1 b2 b3)).length ≤ f' := by
              simp only [List.length_cons] at h'
              simp [List.length_drop]
              omega
            rw [ih f' _ hlen hlen']
          · rw [if_neg hsz, if_neg hsz]

/-- C9, amended.  The reader loops until end-of-file, and a body shorter
than the declared length is indeed an error that aborts the load — but at
the length header only a ZERO-byte read (clean EOF at a record boundary)
terminates the load with success; a short read of one to three trailing
header bytes is `io.ErrUnexpectedEOF`, an error, not a clean terminator.
A full header followed by a full body yields the record and the loop
continues on the remaining bytes. -/
theorem c9_stream_amended :
    readStream [] = some [] ∧
    (∀ bs : List Nat, 1 ≤ bs.length → bs.length ≤ 3 → readStream bs = none) ∧
    (∀ b0 b1 b2 b3 : Nat, ∀ rest : List Nat,
      rest.length < decodeLE4 b0 b1 b2 b3 →
      readStream (b0 :: b1 :: b2 :: b3 :: rest) = none) ∧
    (∀ b0 b1 b2 b3 : Nat, ∀ rest : List Nat,
      decodeLE4 b0 b1 b2 b3 ≤ rest.length →
      readStream (b0 :: b1 :: b2 :: b3 :: rest) =
        (readStream (rest.drop (decodeLE4 b0 b1 b2 b3))).map
          (fun rs => rest.take (decodeLE4 b0 b1 b2 b3) :: rs)) := by
  refine ⟨rfl, ?_, ?_, ?_⟩
  · intro bs h1 h3
    match bs with
    | [b0] => rfl
    | [b0, b1] => rfl
    | [b0, b1, b2] => rfl
    | [] => simp at h1
    | b0 :: b1 :: b2 :: b3 :: rest => simp at h3
  · intro b0 b1 b2 b3 rest hshort
    unfold readStream readStreamAux
    simp only [List.length_cons]
    rw [if_neg (by omega)]
  · intro b0 b1 b2 b3 rest hfit
    unfold readStream
    show readStreamAux (rest.length + 3 + 1) (b0 :: b1 :: b2 :: b3 :: rest) = _
    simp only [readStreamAux]
    rw [if_pos hfit]
    have hfuel : (rest.drop (decodeLE4 b0 b1 b2 b3)).length ≤ rest.length + 3 := by
      simp [List.length_drop]
      omega
    rw [readStreamAux_fuel (rest.length + 3) (rest.drop (decodeLE4 b0 b1 b2 b3)).length _
      hfuel (Nat.le_refl _)]
    rcases readStreamAux (rest.drop (decodeLE4 b0 b1 b2 b3)).length
        (rest.drop (decodeLE4 b0 b1 b2 b3)) with _ | rs <;> rfl

/-- C9, witness: the amended theorem applied to concrete streams — a
partial header of two bytes errors, a declared length of 3 with a 2-byte
body errors, and a well-formed one-record stream parses. -/
theorem c9_stream_amended_witness :
    readStream [5, 0] = none ∧
    readStream [3, 0, 0, 0, 1, 2] = none ∧
    readStream [1, 0, 0, 0, 9] =
      (readStream (([9] : List Nat).drop (decodeLE4 1 0 0 0))).map
        (fun rs => ([9] : List Nat).take (decodeLE4 1 0 0 0) :: rs) :=
  ⟨c9_stream_amended.2.1 [5, 0] (by decide) (by decide),
   c9_stream_amended.2.2.1 3 0 0 0 [1, 2] (by decide),
   c9_stream_amended.2.2.2 1 0 0 0 [9] (by decide)⟩

/-! ## Claim C10: one registry for both index variants -/

theorem alGet_append {κ α : Type} [DecidableEq κ] (l1 l2 : List (κ × α)) (k : κ) :
    alGet (l1 ++ l2) k = ((alGet l1 k).rec (alGet l2 k) (fun v => some v)) := by
  induction l1 with
  | nil => simp [alGet]
  | cons hd tl ih =>
      obtain ⟨k0, v0⟩ := hd
      by_cases h : k = k0
      · simp [alGet, h]
      · simp [alGet, h, ih]

theorem alGet_dbCreateIndex_self (db : DB) (f : String) :
    (alGet (dbCreateIndex db f).indexes f).isSome := by
  unfold dbCreateIndex
  rcases h : alGet db.indexes f with _ | e
  · simp [alGet_append, h, alGet]
  · simp [h]

theorem alGet_dbCreateCompositeIndex_self (db : DB) (fields : List String) :
    (alGet (dbCreateCompositeIndex db fields).indexes
      (String.intercalate "-" fields)).isSome := by
  unfold dbCreateCompositeIndex
  rcases h : alGet db.indexes (String.intercalate "-" fields) with _ | e
  · simp [alGet_append, h, alGet]
  · simp [h]

/-- C10, confirmed.  Single and composite indexes live in one registry
keyed by the field name or the `-`-joined field list.  Once ANY entry sits
under the joined key, `CreateCompositeIndex` is a no-op (and symmetrically
`CreateIndex` after `CreateCompositeIndex`), and `QueryComposite` finding
an entry of the single-index variant under the joined key fails its type
switch and returns the empty result with no fallback scan. -/
theorem c10_registry_collision :
    (∀ (db : DB) (fields : List String),
      dbCreateCompositeIndex (dbCreateIndex db (String.intercalate "-" fields)) fields
        = dbCreateIndex db (String.intercalate "-" fields)) ∧
    (∀ (db : DB) (fields : List String),
      dbCreateIndex (dbCreateCompositeIndex db fields) (String.intercalate "-" fields)
        = dbCreateCompositeIndex db fields) ∧
    (∀ (db : DB) (fields : List String) (vals : List GoValue) (si : SIndex),
      alGet db.indexes (String.intercalate "-" fields) = some (.single si) →
      dbQueryComposite db fields vals = []) := by
  refine ⟨?_, ?_, ?_⟩
  · intro db fields
    have h := alGet_dbCreateIndex_self db (String.intercalate "-" fields)
    unfold dbCreateCompositeIndex
    rcases hx : alGet (dbCreateIndex db (String.intercalate "-" fields)).indexes
        (String.intercalate "-" fields) with _ | e
    · rw [hx] at h
      simp at h
    · simp [hx]
  · intro db fields
    have h := alGet_dbCreateCompositeIndex_self db fields
    unfold dbCreateIndex
    rcases hx : alGet (dbCreateCompositeIndex db fields).indexes
        (String.intercalate "-" fields) with _ | e
    · rw [hx] at h
      simp at h
    · simp [hx]
  · intro db fields vals si h
    simp [dbQueryComposite, h]

/-- C10, witness: after `CreateIndex("a-b")` on an empty database, a later
`CreateCompositeIndex(["a","b"])` changes nothing, and
`QueryComposite(["a","b"], ["x"])` returns the empty result. -/
theorem c10_registry_collision_witness :
    dbCreateCompositeIndex (dbCreateIndex (emptyDB "id") (String.intercalate "-" ["a", "b"]))
      ["a", "b"] = dbCreateIndex (emptyDB "id") (String.intercalate "-" ["a", "b"]) ∧
    dbQueryComposite (dbCreateIndex (emptyDB "id") "a-b") ["a", "b"] [gStr "x"] = [] :=
  ⟨c10_registry_collision.1 (emptyDB "id") ["a", "b"],
   c10_registry_collision.2.2 (dbCreateIndex (emptyDB "id") "a-b") ["a", "b"] [gStr "x"]
     (buildSIndex "a-b" []) rfl⟩

/-! ## Claim C5: Insert error paths leave the state unchanged -/

/-- C5, confirmed.  In each error case of `Insert` — an input that is
neither a mapping nor a string, a mapping without the primary-key field, a
duplicate id, or a failing WAL append — the call returns an error and the
document store, the index registry and the doc count are those of the
original state; in the WAL-failure case in particular the error return
happens before any in-memory mutation (`walOk = false` makes every
completed `Insert` path return the untouched state, whichever check it
stops at).  A JSON string that fails to decode likewise changes nothing. -/
theorem c5_insert_error_paths (db : DB) (decode : String → Option Doc) (walOk : Bool)
    (d : Doc) (s : String) :
    ((dbInsert db .other decode walOk).1.isSome ∧
      (dbInsert db .other decode walOk).2 = db) ∧
    (alGet d db.primaryKey = none →
      (dbInsert db (.asMap d) decode walOk).1.isSome ∧
      (dbInsert db (.asMap d) decode walOk).2 = db) ∧
    (∀ pkv : GoValue, alGet d db.primaryKey = some pkv →
      (alGet db.data (goSprint pkv)).isSome →
      (dbInsert db (.asMap d) decode walOk).1.isSome ∧
      (dbInsert db (.asMap d) decode walOk).2 = db) ∧
    ((dbInsert db (.asMap d) decode false).1.isSome ∧
      (dbInsert db (.asMap d) decode false).2 = db) ∧
    (decode s = none →
      (dbInsert db (.asJson s) decode walOk).1.isSome ∧
      (dbInsert db (.asJson s) decode walOk).2 = db) := by
  have emap : ∀ w, dbInsert db (.asMap d) decode w = insertDoc db d w := fun _ => rfl
  have ejson : dbInsert db (.asJson s) decode walOk
      = (match decode s with
         | none => (some "failed to parse JSON string", db)
         | some d0 => insertDoc db d0 walOk) := rfl
  refine ⟨⟨rfl, rfl⟩, ?_, ?_, ?_, ?_⟩
  · intro h
    rw [emap]
    unfold insertDoc
    rw [h]
    exact ⟨rfl, rfl⟩
  · intro pkv h hdup
    rw [emap]
    unfold insertDoc
    rw [h]
    rcases hx : alGet db.data (goSprint pkv) with _ | old
    · rw [hx] at hdup
      simp at hdup
    · simp only [hx]
      constructor <;> simp
  · rw [emap]
    unfold insertDoc
    rcases h : alGet d db.primaryKey with _ | pkv
    · exact ⟨rfl, rfl⟩
    · rcases hx : alGet db.data (goSprint pkv) with _ | old
      · simp only [hx]
        constructor <;> simp
      · simp only [hx]
        constructor <;> simp
  · intro h
    rw [ejson, h]
    exact ⟨rfl, rfl⟩

/-- The one-document database used by the C5 witness. -/
def c5DB : DB := (insertDoc (emptyDB "id") [("id", gStr "1")] true).2

/-- C5, witness: the error paths at concrete inputs — an unsupported input
shape, a document lacking the primary key, a duplicate of an existing id,
and a WAL failure — all leave a one-document database unchanged. -/
theorem c5_insert_error_paths_witness :
    ((dbInsert c5DB .other (fun _ => none) true).2 = c5DB) ∧
    ((dbInsert c5DB (.asMap [("name", gStr "n")]) (fun _ => none) true).2 = c5DB) ∧
    ((dbInsert c5DB (.asMap [("id", gStr "1"), ("x", gInt 4)]) (fun _ => none) true).2
      = c5DB) ∧
    ((dbInsert c5DB (.asMap [("id", gStr "2")]) (fun _ => none) false).2 = c5DB) ∧
    ((dbInsert c5DB (.asJson "not json") (fun _ => none) true).2 = c5DB) :=
  ⟨(c5_insert_error_paths c5DB (fun _ => none) true [] "").1.2,
   ((c5_insert_error_paths c5DB (fun _ => none) true [("name", gStr "n")] "").2.1
     (by decide)).2,
   ((c5_insert_error_paths c5DB (fun _ => none) true [("id", gStr "1"), ("x", gInt 4)]
      "").2.2.1 (gStr "1") (by decide) (by decide)).2,
   ((c5_insert_error_paths c5DB (fun _ => none) false [("id", gStr "2")] "").2.2.2.1).2,
   ((c5_insert_error_paths c5DB (fun _ => none) true [] "not json").2.2.2.2 rfl).2⟩

/-! ## Structural lemmas about the mutation paths -/

theorem keys_alSet_of_none {κ α : Type} [DecidableEq κ] (l : List (κ × α)) (k : κ) (v : α)
    (h : alGet l k = none) : (alSet l k v).map Prod.fst = l.map Prod.fst ++ [k] := by
  induction l with
  | nil => simp [alSet]
  | cons hd tl ih =>
      obtain ⟨k0, v0⟩ := hd
      by_cases hk : k = k0
      · rw [hk] at h
        simp [alGet] at h
      · simp only [alGet, if_neg hk] at h
        simp [alSet, hk, ih h]

theorem length_alSet_of_none {κ α : Type} [DecidableEq κ] (l : List (κ × α)) (k : κ)
    (v : α) (h : alGet l k = none) : (alSet l k v).length = l.length + 1 := by
  have := keys_alSet_of_none l k v h
  have h1 : ((alSet l k v).map Prod.fst).length = (l.map Prod.fst ++ [k]).length := by
    rw [this]
  simpa using h1

theorem length_alSet_of_some {κ α : Type} [DecidableEq κ] (l : List (κ × α)) (k : κ)
    (v : α) (h : (alGet l k).isSome) : (alSet l k v).length = l.length := by
  induction l with
  | nil => simp [alGet] at h
  | cons hd tl ih =>
      obtain ⟨k0, v0⟩ := hd
      by_cases hk : k = k0
      · simp [alSet, hk]
      · simp only [alGet, if_neg hk] at h
        simp [alSet, hk, ih h]

theorem length_alErase_of_some {κ α : Type} [DecidableEq κ] (l : List (κ × α)) (k : κ)
    (h : (alGet l k).isSome) : l.length = (alErase l k).length + 1 := by
  induction l with
  | nil => simp [alGet] at h
  | cons hd tl ih =>
      obtain ⟨k0, v0⟩ := hd
      by_cases hk : k = k0
      · simp [alErase, hk]
      · simp only [alGet, if_neg hk] at h
        simp [alErase, hk, ih h]

/-- Case analysis of a (quiescent, WAL-succeeding) `Insert`: either it
fails and returns the state unchanged, or the document carries a primary
key whose string form is fresh and every component is updated. -/
theorem insertDoc_cases (db : DB) (doc : Doc) :
    ((insertDoc db doc true).1.isSome = true ∧ (insertDoc db doc true).2 = db) ∨
    (∃ pkv, alGet doc db.primaryKey = some pkv ∧
      alGet db.data (goSprint pkv) = none ∧
      (insertDoc db doc true).1 = none ∧
      (insertDoc db doc true).2 = DB.mk
        (alSet db.data (goSprint pkv) doc)
        (indexesMap (entryInsert doc (goSprint pkv)) db.indexes)
        (db.docCount + 1)
        (db.dataFile ++ [(goSprint pkv, doc)])
        (db.wal ++ [WalRec.mk "INSERT" (goSprint pkv) doc])
        db.primaryKey) := by
  rcases h : alGet doc db.primaryKey with _ | pkv
  · left
    constructor <;> (unfold insertDoc; simp [h])
  · rcases hx : alGet db.data (goSprint pkv) with _ | old
    · right
      refine ⟨pkv, rfl, hx, ?_, ?_⟩ <;> (unfold insertDoc; rw [h]; simp [hx])
    · left
      constructor <;> (unfold insertDoc; rw [h]; simp [hx])

/-- Case analysis of a quiescent `Update`. -/
theorem dbUpdate_cases (db : DB) (id : String) (patch : Doc) :
    ((dbUpdate db id patch).2 = db ∧ alGet db.data id = none) ∨
    (∃ oldDoc, alGet db.data id = some oldDoc ∧
      (dbUpdate db id patch).2 = DB.mk
        (alSet db.data id (overlayDoc oldDoc patch))
        (indexesMap (entryUpdate id oldDoc (overlayDoc oldDoc patch)) db.indexes)
        db.docCount
        (db.dataFile ++ [(id, overlayDoc oldDoc patch)])
        (db.wal ++ [WalRec.mk "UPDATE" id (overlayDoc oldDoc patch)])
        db.primaryKey) := by
  rcases h : alGet db.data id with _ | oldDoc
  · refine Or.inl ⟨?_, rfl⟩
    unfold dbUpdate
    rw [h]
  · refine Or.inr ⟨oldDoc, rfl, ?_⟩
    unfold dbUpdate
    rw [h]

/-- Case analysis of a quiescent `Delete`. -/
theorem dbDelete_cases (db : DB) (id : String) :
    ((dbDelete db id).2 = db ∧ alGet db.data id = none) ∨
    (∃ doc, alGet db.data id = some doc ∧
      (dbDelete db id).2 = DB.mk
        (alErase db.data id)
        (indexesMap (entryRemove id doc) db.indexes)
        (db.docCount - 1)
        db.dataFile
        (db.wal ++ [WalRec.mk "DELETE" id []])
        db.primaryKey) := by
  rcases h : alGet db.data id with _ | doc
  · refine Or.inl ⟨?_, rfl⟩
    unfold dbDelete
    rw [h]
  · refine Or.inr ⟨doc, rfl, ?_⟩
    unfold dbDelete
    rw [h]

theorem dbCreateIndex_data (db : DB) (f : String) :
    (dbCreateIndex db f).data = db.data ∧
    (dbCreateIndex db f).dataFile = db.dataFile ∧
    (dbCreateIndex db f).docCount = db.docCount := by
  unfold dbCreateIndex
  rcases h : alGet db.indexes f with _ | e <;> simp [h]

theorem dbCreateCompositeIndex_data (db : DB) (fields : List String) :
    (dbCreateCompositeIndex db fields).data = db.data ∧
    (dbCreateCompositeIndex db fields).dataFile = db.dataFile ∧
    (dbCreateCompositeIndex db fields).docCount = db.docCount := by
  unfold dbCreateCompositeIndex
  rcases h : alGet db.indexes (String.intercalate "-" fields) with _ | e <;> simp [h]

/-! ## Claim C1: restart reconstruction -/

def isDeleteOp : Op → Bool
  | .opDelete _ => true
  | _ => false

/-- The reload invariant: replaying the data file reconstructs the store. -/
def loadPreserved (db : DB) : Prop :=
  ∀ id, alGet (loadStore db.dataFile) id = alGet db.data id

theorem loadStore_append (recs : List (String × Doc)) (r : String × Doc) :
    loadStore (recs ++ [r]) = alSet (loadStore recs) r.1 r.2 := by
  simp [loadStore, List.foldl_append]

theorem runOp_loadPreserved (db : DB) (op : Op) (h : loadPreserved db)
    (hnd : isDeleteOp op = false) : loadPreserved (runOp db op) := by
  cases op with
  | opInsert d =>
      rcases insertDoc_cases db d with ⟨_, hc⟩ | ⟨pkv, hpk, hfresh, _, hc⟩
      · simpa [runOp, hc] using h
      · intro id
        simp only [runOp, hc, loadStore_append]
        by_cases hid : id = goSprint pkv
        · subst hid
          rw [alGet_alSet_self, alGet_alSet_self]
        · rw [alGet_alSet_ne _ _ _ _ hid, alGet_alSet_ne _ _ _ _ hid]
          exact h id
  | opUpdate uid patch =>
      rcases dbUpdate_cases db uid patch with ⟨hc, _⟩ | ⟨oldDoc, hold, hc⟩
      · simpa [runOp, hc] using h
      · intro id
        simp only [runOp, hc, loadStore_append]
        by_cases hid : id = uid
        · subst hid
          rw [alGet_alSet_self, alGet_alSet_self]
        · rw [alGet_alSet_ne _ _ _ _ hid, alGet_alSet_ne _ _ _ _ hid]
          exact h id
  | opDelete did => simp [isDeleteOp] at hnd
  | opCreateIndex f =>
      intro id
      have hd := dbCreateIndex_data db f
      simp only [runOp, hd.1, hd.2.1]
      exact h id
  | opCreateCompositeIndex fs =>
      intro id
      have hd := dbCreateCompositeIndex_data db fs
      simp only [runOp, hd.1, hd.2.1]
      exact h id

theorem foldl_loadPreserved (ops : List Op) :
    ∀ db : DB, loadPreserved db → ops.all (fun op => !isDeleteOp op) = true →
      loadPreserved (ops.foldl runOp db) := by
  induction ops with
  | nil => intro db h _; exact h
  | cons op rest ih =>
      intro db h hall
      simp only [List.all_cons, Bool.and_eq_true, Bool.not_eq_true'] at hall
      exact ih (runOp db op) (runOp_loadPreserved db op h hall.1)
        (by simpa using hall.2)

/-- C1, counterexample.  The claim states that after any acknowledged
sequence followed by Close and re-Open, every Get returns what it returned
before the restart.  Deletes are never written to the data file and the
WAL is truncated at open before replay, so a deleted document reappears:
before the restart Get("1") is absent, after it the document is back. -/
theorem c1_roundtrip_counterexample :
    dbGet (runOps "id" [.opInsert [("id", gStr "1")], .opDelete "1"]) "1" = none ∧
    dbGet (reopenDB (runOps "id" [.opInsert [("id", gStr "1")], .opDelete "1"])) "1"
      = some [("id", gStr "1")] := by
  decide

/-- C1, amended.  For every acknowledged sequence of Inserts and Updates
(no Deletes), closing and re-opening reconstructs a store in which every
id resolves to exactly the document it resolved to before the restart:
each such operation appends to the data file the same record it installed
in memory, reload applies records in order with last-record-wins, and the
truncated-at-open WAL replays nothing. -/
theorem c1_roundtrip_amended (pk : String) (ops : List Op)
    (h : ops.all (fun op => !isDeleteOp op) = true) (id : String) :
    dbGet (reopenDB (runOps pk ops)) id = dbGet (runOps pk ops) id := by
  have hbase : loadPreserved (emptyDB pk) := fun id => rfl
  have hinv := foldl_loadPreserved ops (emptyDB pk) hbase h
  have hwal : walReplay (loadStore (runOps pk ops).dataFile) [] =
      loadStore (runOps pk ops).dataFile := rfl
  show alGet (reopenDB (runOps pk ops)).data id = alGet (runOps pk ops).data id
  unfold reopenDB
  simp only [hwal]
  exact hinv id

/-- C1, witness for the amended theorem: an insert followed by an update,
then a restart, leaves Get("1") unchanged. -/
theorem c1_roundtrip_amended_witness :
    dbGet (reopenDB (runOps "id"
        [.opInsert [("id", gStr "1")], .opUpdate "1" [("a", gInt 2)]])) "1"
      = dbGet (runOps "id"
        [.opInsert [("id", gStr "1")], .opUpdate "1" [("a", gInt 2)]]) "1" :=
  c1_roundtrip_amended "id" [.opInsert [("id", gStr "1")], .opUpdate "1" [("a", gInt 2)]]
    (by decide) "1"

/-! ## Claim C8: the doc count -/

/-- The net count contribution of one operation at a given state: +1 for
an insert that succeeds, -1 for a delete that removes a present document,
0 otherwise. -/
def opNet (db : DB) : Op → Int
  | .opInsert d => if (insertDoc db d true).1.isSome then 0 else 1
  | .opDelete id => if (alGet db.data id).isSome then -1 else 0
  | _ => 0

/-- The net insert/delete count of a whole sequence run from a state. -/
def netOps : DB → List Op → Int
  | _, [] => 0
  | db, op :: rest => opNet db op + netOps (runOp db op) rest

theorem runOp_count (db : DB) (op : Op) :
    (runOp db op).docCount = db.docCount + opNet db op ∧
    ((runOp db op).data.length : Int) - (db.data.length : Int) = opNet db op := by
  cases op with
  | opInsert d =>
      rcases insertDoc_cases db d with ⟨herr, hc⟩ | ⟨pkv, hpk, hfresh, hok, hc⟩
      · simp [runOp, opNet, herr, hc]
      · have hok' : (insertDoc db d true).1.isSome = false := by
          rw [hok]
          rfl
        constructor
        · simp [runOp, opNet, hok', hc]
        · simp [runOp, opNet, hok', hc, length_alSet_of_none db.data _ d hfresh]
  | opUpdate uid patch =>
      rcases dbUpdate_cases db uid patch with ⟨hc, _⟩ | ⟨oldDoc, hold, hc⟩
      · simp [runOp, opNet, hc]
      · constructor
        · simp [runOp, opNet, hc]
        · have hl : (alSet db.data uid (overlayDoc oldDoc patch)).length
              = db.data.length :=
            length_alSet_of_some db.data uid _ (by simp [hold])
          simp [runOp, opNet, hc, hl]
  | opDelete did =>
      rcases dbDelete_cases db did with ⟨hc, hmiss⟩ | ⟨doc, hdoc, hc⟩
      · simp [runOp, opNet, hc, hmiss]
      · have hl : db.data.length = (alErase db.data did).length + 1 :=
          length_alErase_of_some db.data did (by simp [hdoc])
        constructor
        · simp [runOp, opNet, hc, hdoc]
          omega
        · simp [runOp, opNet, hc, hdoc]
          omega
  | opCreateIndex f =>
      have hd := dbCreateIndex_data db f
      constructor
      · simp [runOp, opNet, hd.2.2]
      · simp [runOp, opNet, hd.1]
  | opCreateCompositeIndex fs =>
      have hd := dbCreateCompositeIndex_data db fs
      constructor
      · simp [runOp, opNet, hd.2.2]
      · simp [runOp, opNet, hd.1]

theorem foldl_count (ops : List Op) :
    ∀ db : DB, db.docCount = (db.data.length : Int) →
      (ops.foldl runOp db).docCount = ((ops.foldl runOp db).data.length : Int) ∧
      (ops.foldl runOp db).docCount = db.docCount + netOps db ops := by
  induction ops with
  | nil => intro db h; exact ⟨h, by simp [netOps]⟩
  | cons op rest ih =>
      intro db h
      have hop := runOp_count db op
      have hnext : (runOp db op).docCount = ((runOp db op).data.length : Int) := by
        omega
      have hrec := ih (runOp db op) hnext
      refine ⟨by simpa using hrec.1, ?_⟩
      simp only [List.foldl_cons, netOps]
      omega

/-- C8, counterexample.  The claim includes sequences that go through a
restart.  `loadData` bumps the doc count once per data-file RECORD, and an
update appends a second record for the same id, so after insert + update +
restart the count is 2 while the store holds a single document. -/
theorem c8_count_counterexample :
    dbCount (reopenDB (runOps "id"
      [.opInsert [("id", gStr "1")], .opUpdate "1" [("a", gInt 2)]])) = 2 ∧
    (reopenDB (runOps "id"
      [.opInsert [("id", gStr "1")], .opUpdate "1" [("a", gInt 2)]])).data.length = 1 := by
  decide

/-- C8, amended.  At every quiescent point of a restart-free operation
sequence, `Count()` equals the number of documents stored, which equals
the number of successful inserts minus the number of deletes that removed
a present document.  After a restart the count instead equals the number
of data-file records loaded, which exceeds the number of stored documents
as soon as the history contains an update (or a re-inserted id). -/
theorem c8_count_amended (pk : String) (ops : List Op) :
    dbCount (runOps pk ops) = (((runOps pk ops).data.length : Nat) : Int) ∧
    dbCount (runOps pk ops) = netOps (emptyDB pk) ops := by
  have h := foldl_count ops (emptyDB pk) (by simp [emptyDB])
  exact ⟨h.1, by simpa [emptyDB] using h.2⟩

/-! ## Claim C2: the single-field index invariant -/

def isStrVal : GoValue → Bool
  | gStr _ => true
  | _ => false

/-- Every field value of the document is a string. -/
def allStrDoc (d : Doc) : Bool := d.all (fun kv => isStrVal kv.2)

/-- The operation only introduces string field values. -/
def allStrOp : Op → Bool
  | .opInsert d => allStrDoc d
  | .opUpdate _ p => allStrDoc p
  | _ => true

theorem indexKeyOf_of_isStr (v : GoValue) (h : isStrVal v = true) : indexKeyOf v = v := by
  cases v <;> simp [isStrVal] at h ⊢ <;> rfl

theorem docsAdd_mem (id id' : String) (ds : List String) :
    id' ∈ docsAdd id ds ↔ id' = id ∨ id' ∈ ds := by
  unfold docsAdd
  by_cases h : id ∈ ds
  · simp only [if_pos h]
    constructor
    · exact Or.inr
    · rintro (rfl | hm)
      · exact h
      · exact hm
  · simp only [if_neg h, List.mem_append, List.mem_singleton]
    tauto

theorem docsRemove_mem (id id' : String) (ds : List String) :
    id' ∈ docsRemove id ds ↔ id' ∈ ds ∧ id' ≠ id := by
  simp [docsRemove]

theorem bucketMem_bucketAdd {κ : Type} [DecidableEq κ] (vals : List (κ × List String))
    (k : κ) (id : String) (k' : κ) (id' : String) :
    bucketMem (bucketAdd vals k id) k' id' = true ↔
      (k' = k ∧ id' = id) ∨ bucketMem vals k' id' = true := by
  unfold bucketAdd bucketMem
  rcases h : alGet vals k with _ | ids
  · by_cases hk : k' = k
    · subst hk
      rw [alGet_append, h]
      simp only [h, alGet]
      simp [docsAdd_mem]
    · rw [alGet_append]
      rcases h' : alGet vals k' with _ | ids'
      · simp only [alGet, if_neg hk]
        simp [hk]
      · simp [hk]
  · by_cases hk : k' = k
    · subst hk
      rw [alGet_alSet_self, h]
      simp [docsAdd_mem]
    · rw [alGet_alSet_ne _ _ _ _ hk]
      simp [hk]

theorem bucketMem_bucketRemove {κ : Type} [DecidableEq κ] (vals : List (κ × List String))
    (k : κ) (id : String) (k' : κ) (id' : String) :
    bucketMem (bucketRemove vals k id) k' id' = true ↔
      bucketMem vals k' id' = true ∧ ¬(k' = k ∧ id' = id) := by
  unfold bucketRemove bucketMem
  rcases h : alGet vals k with _ | ids
  · by_cases hk : k' = k
    · subst hk
      rw [h]
      simp
    · rcases h' : alGet vals k' with _ | ids' <;> simp [hk]
  · by_cases hk : k' = k
    · subst hk
      rw [alGet_alSet_self, h]
      simp [docsRemove_mem]
    · rw [alGet_alSet_ne _ _ _ _ hk]
      simp [hk]

theorem alGet_mem {κ α : Type} [DecidableEq κ] (l : List (κ × α)) (k : κ) (v : α)
    (h : alGet l k = some v) : (k, v) ∈ l := by
  induction l with
  | nil => simp [alGet] at h
  | cons hd tl ih =>
      obtain ⟨k0, v0⟩ := hd
      by_cases hk : k = k0
      · subst hk
        simp [alGet] at h
        simp [h]
      · simp only [alGet, if_neg hk] at h
        simp [ih h]

theorem mem_alSet {κ α : Type} [DecidableEq κ] (l : List (κ × α)) (k : κ) (v : α)
    (p : κ × α) (h : p ∈ alSet l k v) : p = (k, v) ∨ p ∈ l := by
  induction l with
  | nil => simpa [alSet] using h
  | cons hd tl ih =>
      obtain ⟨k0, v0⟩ := hd
      by_cases hk : k = k0
      · subst hk
        rw [show alSet ((k, v0) :: tl) k v = (k, v) :: tl from by
          simp [alSet]] at h
        rcases List.mem_cons.mp h with h1 | h1
        · exact Or.inl h1
        · exact Or.inr (List.mem_cons_of_mem _ h1)
      · rw [show alSet ((k0, v0) :: tl) k v = (k0, v0) :: alSet tl k v from by
          simp [alSet, hk]] at h
        rcases List.mem_cons.mp h with h1 | h1
        · exact Or.inr (by simp [h1])
        · rcases ih h1 with h2 | h2
          · exact Or.inl h2
          · exact Or.inr (List.mem_cons_of_mem _ h2)

theorem mem_alErase {κ α : Type} [DecidableEq κ] (l : List (κ × α)) (k : κ)
    (p : κ × α) (h : p ∈ alErase l k) : p ∈ l := by
  induction l with
  | nil => simpa [alErase] using h
  | cons hd tl ih =>
      obtain ⟨k0, v0⟩ := hd
      by_cases hk : k = k0
      · subst hk
        rw [show alErase ((k, v0) :: tl) k = tl from by simp [alErase]] at h
        exact List.mem_cons_of_mem _ h
      · rw [show alErase ((k0, v0) :: tl) k = (k0, v0) :: alErase tl k from by
          simp [alErase, hk]] at h
        rcases List.mem_cons.mp h with h1 | h1
        · exact List.mem_cons.mpr (Or.inl h1)
        · exact List.mem_cons_of_mem _ (ih h1)

theorem allStrDoc_lookup (d : Doc) (f : String) (v : GoValue)
    (hall : allStrDoc d = true) (h : alGet d f = some v) : isStrVal v = true := by
  have hm := alGet_mem d f v h
  exact (List.all_eq_true.mp hall) _ hm

theorem allStrDoc_alSet (d : Doc) (f : String) (v : GoValue)
    (hall : allStrDoc d = true) (hv : isStrVal v = true) :
    allStrDoc (alSet d f v) = true := by
  apply List.all_eq_true.mpr
  intro p hp
  rcases mem_alSet d f v p hp with h | h
  · simp [h, hv]
  · exact (List.all_eq_true.mp hall) _ h

theorem allStrDoc_overlay (old p : Doc) (hold : allStrDoc old = true)
    (hp : allStrDoc p = true) : allStrDoc (overlayDoc old p) = true := by
  unfold overlayDoc
  induction p generalizing old with
  | nil => simpa using hold
  | cons kv rest ih =>
      simp only [allStrDoc, List.all_cons, Bool.and_eq_true] at hp
      simp only [List.foldl_cons]
      exact ih (alSet old kv.1 kv.2) (allStrDoc_alSet old kv.1 kv.2 hold hp.1) hp.2

theorem overlay_isSome_of_old (old p : Doc) (f : String)
    (h : (alGet old f).isSome) : (alGet (overlayDoc old p) f).isSome := by
  unfold overlayDoc
  induction p generalizing old with
  | nil => simpa using h
  | cons kv rest ih =>
      simp only [List.foldl_cons]
      apply ih
      by_cases hf : f = kv.1
      · subst hf
        rw [alGet_alSet_self]
        rfl
      · rw [alGet_alSet_ne _ _ _ _ hf]
        exact h

theorem alGet_indexesMap (g : IdxEntry → IdxEntry) (idxs : List (String × IdxEntry))
    (f : String) : alGet (indexesMap g idxs) f = (alGet idxs f).map g := by
  induction idxs with
  | nil => simp [indexesMap, alGet]
  | cons hd tl ih =>
      obtain ⟨k0, e0⟩ := hd
      by_cases hk : f = k0
      · simp [indexesMap, alGet, hk]
      · simp [indexesMap, alGet, hk] at ih ⊢
        exact ih

theorem sIndexAdd_field (doc : Doc) (id : String) (si : SIndex) :
    (sIndexAdd doc id si).field = si.field := by
  unfold sIndexAdd
  rcases alGet doc si.field with _ | v <;> rfl

theorem sIndexUpdate_field (id : String) (oldDoc newDoc : Doc) (si : SIndex) :
    (sIndexUpdate id oldDoc newDoc si).field = si.field := by
  unfold sIndexUpdate
  by_cases h : (alGet oldDoc si.field).getD gNil = (alGet newDoc si.field).getD gNil <;>
    simp [h]

theorem sIndexRemove_field (id : String) (doc : Doc) (si : SIndex) :
    (sIndexRemove id doc si).field = si.field := by
  unfold sIndexRemove
  rcases alGet doc si.field with _ | v <;> rfl

/-- The single-field index invariant relative to a store: an id sits in a
bucket exactly when that bucket's key is the indexed field's value in the
stored document for that id. -/
def SInv (data : List (String × Doc)) (si : SIndex) : Prop :=
  ∀ id k, bucketMem si.values k id = true ↔
    ∃ d, alGet data id = some d ∧ alGet d si.field = some k

theorem sInv_insert (data : List (String × Doc)) (si : SIndex) (doc : Doc) (id0 : String)
    (hinv : SInv data si) (hfresh : alGet data id0 = none)
    (hstr : allStrDoc doc = true) :
    SInv (alSet data id0 doc) (sIndexAdd doc id0 si) := by
  intro id k
  unfold sIndexAdd
  rcases hf : alGet doc si.field with _ | v
  · by_cases hid : id = id0
    · subst hid
      rw [alGet_alSet_self]
      constructor
      · intro hm
        rcases (hinv id k).mp hm with ⟨d, hd, _⟩
        rw [hfresh] at hd
        cases hd
      · rintro ⟨d, hd, hk⟩
        cases hd
        rw [hf] at hk
        cases hk
    · rw [alGet_alSet_ne _ _ _ _ hid]
      simpa [sIndexAdd, hf] using hinv id k
  · have hv : isStrVal v = true := allStrDoc_lookup doc si.field v hstr hf
    have hkey : indexKeyOf v = v := indexKeyOf_of_isStr v hv
    show bucketMem (bucketAdd si.values (indexKeyOf v) id0) k id = true ↔ _
    rw [hkey, bucketMem_bucketAdd]
    by_cases hid : id = id0
    · subst hid
      rw [alGet_alSet_self]
      have hold : bucketMem si.values k id = true ↔ False := by
        constructor
        · intro hm
          rcases (hinv id k).mp hm with ⟨d, hd, _⟩
          rw [hfresh] at hd
          cases hd
        · exact False.elim
      rw [hold]
      constructor
      · rintro (⟨rfl, _⟩ | hfalse)
        · exact ⟨doc, rfl, hf⟩
        · exact hfalse.elim
      · rintro ⟨d, hd, hk⟩
        cases hd
        rw [hf] at hk
        exact Or.inl ⟨(Option.some_inj.mp hk).symm, rfl⟩
    · rw [alGet_alSet_ne _ _ _ _ hid]
      constructor
      · rintro (⟨_, h'⟩ | hm)
        · exact absurd h' hid
        · exact (hinv id k).mp hm
      · intro hr
        exact Or.inr ((hinv id k).mpr hr)

theorem sInv_update (data : List (String × Doc)) (si : SIndex) (id0 : String)
    (oldDoc patch : Doc) (hinv : SInv data si)
    (hold : alGet data id0 = some oldDoc)
    (hstrOld : allStrDoc oldDoc = true)
    (hstrNew : allStrDoc (overlayDoc oldDoc patch) = true) :
    SInv (alSet data id0 (overlayDoc oldDoc patch))
      (sIndexUpdate id0 oldDoc (overlayDoc oldDoc patch) si) := by
  intro id k
  unfold sIndexUpdate
  by_cases heq : (alGet oldDoc si.field).getD gNil
      = (alGet (overlayDoc oldDoc patch) si.field).getD gNil
  · rw [if_pos heq]
    -- the field value did not change, so the lookups coincide
    have hsame : alGet (overlayDoc oldDoc patch) si.field = alGet oldDoc si.field := by
      rcases ho : alGet oldDoc si.field with _ | w
      · rcases hn : alGet (overlayDoc oldDoc patch) si.field with _ | w'
        · rfl
        · have hw' : isStrVal w' = true :=
            allStrDoc_lookup _ si.field w' hstrNew hn
          rw [ho, hn] at heq
          simp at heq
          rw [← heq] at hw'
          simp [isStrVal] at hw'
      · have hsome := overlay_isSome_of_old oldDoc patch si.field (by simp [ho])
        rcases hn : alGet (overlayDoc oldDoc patch) si.field with _ | w'
        · rw [hn] at hsome
          simp at hsome
        · rw [ho, hn] at heq
          simp at heq
          rw [heq]
    by_cases hid : id = id0
    · subst hid
      rw [alGet_alSet_self]
      rw [hinv id k]
      constructor
      · rintro ⟨d, hd, hk⟩
        rw [hold] at hd
        cases hd
        exact ⟨overlayDoc oldDoc patch, rfl, by rw [hsame]; exact hk⟩
      · rintro ⟨d, hd, hk⟩
        cases hd
        rw [hsame] at hk
        exact ⟨oldDoc, hold, hk⟩
    · rw [alGet_alSet_ne _ _ _ _ hid]
      exact hinv id k
  · rw [if_neg heq]
    show bucketMem (bucketAdd (bucketRemove si.values _ id0) _ id0) k id = true ↔ _
    rw [bucketMem_bucketAdd, bucketMem_bucketRemove]
    by_cases hid : id = id0
    · subst hid
      rw [alGet_alSet_self]
      rcases ho : alGet oldDoc si.field with _ | w
      · -- the old document lacks the field: the id was in no bucket
        have hmem : ∀ k', bucketMem si.values k' id = true ↔ False := by
          intro k'
          constructor
          · intro hm
            rcases (hinv id k').mp hm with ⟨d, hd, hk⟩
            rw [hold] at hd
            cases hd
            rw [ho] at hk
            cases hk
          · exact False.elim
        rcases hn : alGet (overlayDoc oldDoc patch) si.field with _ | w'
        · rw [ho, hn] at heq
          simp at heq
        · simp only [Option.getD_some, Option.getD_none]
          constructor
          · rintro (⟨rfl, _⟩ | ⟨hm, _⟩)
            · exact ⟨overlayDoc oldDoc patch, rfl, hn⟩
            · exact ((hmem k).mp hm).elim
          · rintro ⟨d, hd, hk⟩
            cases hd
            rw [hn] at hk
            exact Or.inl ⟨Option.some_inj.mp hk.symm, trivial⟩
      · -- the old document has the field, value w
        have hsome := overlay_isSome_of_old oldDoc patch si.field (by simp [ho])
        rcases hn : alGet (overlayDoc oldDoc patch) si.field with _ | w'
        · rw [hn] at hsome
          simp at hsome
        · simp only [Option.getD_some]
          have hwmem : ∀ k', bucketMem si.values k' id = true ↔ k' = w := by
            intro k'
            rw [hinv id k']
            constructor
            · rintro ⟨d, hd, hk⟩
              rw [hold] at hd
              cases hd
              rw [ho] at hk
              exact Option.some_inj.mp hk.symm
            · rintro rfl
              exact ⟨oldDoc, hold, ho⟩
          rw [ho, hn] at heq
          simp only [Option.getD_some] at heq
          constructor
          · rintro (⟨rfl, _⟩ | ⟨hm, hne⟩)
            · exact ⟨overlayDoc oldDoc patch, rfl, hn⟩
            · rw [hwmem k] at hm
              exact (hne ⟨hm, trivial⟩).elim
          · rintro ⟨d, hd, hk⟩
            cases hd
            rw [hn] at hk
            exact Or.inl ⟨Option.some_inj.mp hk.symm, trivial⟩
    · rw [alGet_alSet_ne _ _ _ _ hid]
      constructor
      · rintro (⟨_, h'⟩ | ⟨hm, _⟩)
        · exact absurd h' hid
        · exact (hinv id k).mp hm
      · intro hr
        exact Or.inr ⟨(hinv id k).mpr hr, fun h' => hid h'.2⟩

theorem sInv_delete (data : List (String × Doc)) (si : SIndex) (id0 : String) (doc : Doc)
    (hnd : (data.map Prod.fst).Nodup) (hinv : SInv data si)
    (hdoc : alGet data id0 = some doc) :
    SInv (alErase data id0) (sIndexRemove id0 doc si) := by
  intro id k
  unfold sIndexRemove
  rcases hf : alGet doc si.field with _ | v
  · by_cases hid : id = id0
    · subst hid
      rw [alGet_alErase_self data id hnd]
      constructor
      · intro hm
        rcases (hinv id k).mp hm with ⟨d, hd, hk⟩
        rw [hdoc] at hd
        cases hd
        rw [hf] at hk
        cases hk
      · rintro ⟨d, hd, _⟩
        cases hd
    · rw [alGet_alErase_ne _ _ _ hid]
      exact hinv id k
  · show bucketMem (bucketRemove si.values v id0) k id = true ↔ _
    rw [bucketMem_bucketRemove]
    by_cases hid : id = id0
    · subst hid
      rw [alGet_alErase_self data id hnd]
      constructor
      · rintro ⟨hm, hne⟩
        rcases (hinv id k).mp hm with ⟨d, hd, hk⟩
        rw [hdoc] at hd
        cases hd
        rw [hf] at hk
        exact (hne ⟨(Option.some_inj.mp hk).symm, rfl⟩).elim
      · rintro ⟨d, hd, _⟩
        cases hd
    · rw [alGet_alErase_ne _ _ _ hid]
      constructor
      · rintro ⟨hm, _⟩
        exact (hinv id k).mp hm
      · intro hr
        exact ⟨(hinv id k).mpr hr, fun h' => hid h'.2⟩

theorem buildFold_field (l : List (String × Doc)) :
    ∀ start : SIndex,
      (l.foldl (fun si kv => sIndexAdd kv.2 kv.1 si) start).field = start.field := by
  induction l with
  | nil => intro start; rfl
  | cons hd tl ih =>
      intro start
      simp only [List.foldl_cons]
      rw [ih (sIndexAdd hd.2 hd.1 start), sIndexAdd_field]

theorem buildSIndex_fold_mem (f : String) :
    ∀ (l : List (String × Doc)) (start : SIndex), start.field = f →
      (l.map Prod.fst).Nodup →
      ∀ id k,
        (bucketMem (l.foldl (fun si kv => sIndexAdd kv.2 kv.1 si) start).values k id
            = true) ↔
          (bucketMem start.values k id = true ∨
            ∃ d, alGet l id = some d ∧ ∃ v, alGet d f = some v ∧ k = indexKeyOf v) := by
  intro l
  induction l with
  | nil =>
      intro start _ _ id k
      simp [alGet]
  | cons hd tl ih =>
      obtain ⟨id0, d0⟩ := hd
      intro start hfield hnd id k
      simp only [List.map_cons, List.nodup_cons] at hnd
      simp only [List.foldl_cons]
      rw [ih (sIndexAdd d0 id0 start) (by rw [sIndexAdd_field]; exact hfield) hnd.2]
      have hmemAdd : ∀ k' id', bucketMem (sIndexAdd d0 id0 start).values k' id' = true ↔
          ((∃ v, alGet d0 f = some v ∧ k' = indexKeyOf v ∧ id' = id0) ∨
            bucketMem start.values k' id' = true) := by
        intro k' id'
        unfold sIndexAdd
        rw [hfield]
        rcases hf : alGet d0 f with _ | v
        · simp
        · show bucketMem (bucketAdd start.values (indexKeyOf v) id0) k' id' = true ↔ _
          rw [bucketMem_bucketAdd]
          constructor
          · rintro (⟨rfl, rfl⟩ | hm)
            · exact Or.inl ⟨v, rfl, rfl, rfl⟩
            · exact Or.inr hm
          · rintro (⟨v', hv', rfl, rfl⟩ | hm)
            · cases hv'
              exact Or.inl ⟨rfl, rfl⟩
            · exact Or.inr hm
      rw [hmemAdd]
      by_cases hid : id = id0
      · subst hid
        have hrest : alGet tl id = none :=
          alGet_eq_none_of_not_mem tl id hnd.1
        constructor
        · rintro ((⟨v, hv, rfl, _⟩ | hm) | ⟨d, hd, hrestex⟩)
          · exact Or.inr ⟨d0, by simp [alGet], v, hv, rfl⟩
          · exact Or.inl hm
          · rw [hrest] at hd
            cases hd
        · rintro (hm | ⟨d, hd, v, hv, rfl⟩)
          · exact Or.inl (Or.inr hm)
          · simp only [alGet, if_pos rfl] at hd
            cases hd
            exact Or.inl (Or.inl ⟨v, hv, rfl, rfl⟩)
      · constructor
        · rintro ((⟨v, hv, rfl, h0⟩ | hm) | ⟨d, hd, hrestex⟩)
          · exact absurd h0 hid
          · exact Or.inl hm
          · exact Or.inr ⟨d, by simpa [alGet, hid] using hd, hrestex⟩
        · rintro (hm | ⟨d, hd, hrestex⟩)
          · exact Or.inl (Or.inr hm)
          · simp only [alGet, if_neg hid] at hd
            exact Or.inr ⟨d, hd, hrestex⟩

theorem buildSIndex_field (f : String) (data : List (String × Doc)) :
    (buildSIndex f data).field = f := by
  unfold buildSIndex
  rw [buildFold_field]

theorem sInv_build (f : String) (data : List (String × Doc))
    (hnd : (data.map Prod.fst).Nodup)
    (hstr : ∀ p ∈ data, allStrDoc p.2 = true) :
    SInv data (buildSIndex f data) := by
  intro id k
  rw [buildSIndex_field]
  unfold buildSIndex
  rw [buildSIndex_fold_mem f data (SIndex.mk f [] emptyTrieNode) rfl hnd]
  constructor
  · rintro (hm | ⟨d, hd, v, hv, rfl⟩)
    · simp [bucketMem, alGet] at hm
    · have hstrv : isStrVal v = true :=
        allStrDoc_lookup d f v (hstr _ (alGet_mem data id d hd)) hv
      rw [indexKeyOf_of_isStr v hstrv]
      exact ⟨d, hd, hv⟩
  · rintro ⟨d, hd, hk⟩
    have hstrk : isStrVal k = true :=
      allStrDoc_lookup d f k (hstr _ (alGet_mem data id d hd)) hk
    exact Or.inr ⟨d, hd, k, hk, (indexKeyOf_of_isStr k hstrk).symm⟩

theorem alErase_sublist {κ α : Type} [DecidableEq κ] (l : List (κ × α)) (k : κ) :
    (alErase l k).Sublist l := by
  induction l with
  | nil => simp [alErase]
  | cons hd tl ih =>
      obtain ⟨k0, v0⟩ := hd
      by_cases hk : k = k0
      · simp [alErase, hk]
      · simp only [alErase, if_neg hk]
        exact List.Sublist.cons₂ _ ih

theorem nodupKeys_alErase {κ α : Type} [DecidableEq κ] (l : List (κ × α)) (k : κ)
    (h : (l.map Prod.fst).Nodup) : ((alErase l k).map Prod.fst).Nodup :=
  ((alErase_sublist l k).map Prod.fst).nodup h

/-- The full run invariant for claim C2: no duplicate store keys, every
stored value a string, and every registered single-field index consistent
with the store. -/
def C2Inv (db : DB) : Prop :=
  (db.data.map Prod.fst).Nodup ∧
  (∀ p ∈ db.data, allStrDoc p.2 = true) ∧
  (∀ f si, alGet db.indexes f = some (.single si) → si.field = f ∧ SInv db.data si)

theorem runOp_C2Inv (db : DB) (op : Op) (h : C2Inv db) (hop : allStrOp op = true) :
    C2Inv (runOp db op) := by
  obtain ⟨hnd, hstr, hidx⟩ := h
  cases op with
  | opInsert d =>
      rcases insertDoc_cases db d with ⟨_, hc⟩ | ⟨pkv, hpk, hfresh, _, hc⟩
      · rw [runOp, hc]
        exact ⟨hnd, hstr, hidx⟩
      · rw [runOp, hc]
        refine ⟨nodupKeys_alSet db.data _ d hnd, ?_, ?_⟩
        · intro p hp
          rcases mem_alSet db.data _ d p hp with hme | hme
          · rw [hme]
            exact hop
          · exact hstr p hme
        · intro f si hsi
          rw [alGet_indexesMap] at hsi
          rcases he : alGet db.indexes f with _ | e
          · rw [he] at hsi
            cases hsi
          · rw [he] at hsi
            cases e with
            | single si0 =>
                simp [entryInsert] at hsi
                obtain ⟨h1, h2⟩ := hidx f si0 he
                rw [← hsi]
                refine ⟨by rw [sIndexAdd_field]; exact h1, ?_⟩
                exact sInv_insert db.data si0 d _ h2 hfresh hop
            | comp ci =>
                simp [entryInsert] at hsi
  | opUpdate uid patch =>
      rcases dbUpdate_cases db uid patch with ⟨hc, _⟩ | ⟨oldDoc, hold, hc⟩
      · rw [runOp, hc]
        exact ⟨hnd, hstr, hidx⟩
      · rw [runOp, hc]
        have hstrOld : allStrDoc oldDoc = true := hstr _ (alGet_mem db.data uid oldDoc hold)
        have hstrNew : allStrDoc (overlayDoc oldDoc patch) = true :=
          allStrDoc_overlay oldDoc patch hstrOld hop
        refine ⟨nodupKeys_alSet db.data uid _ hnd, ?_, ?_⟩
        · intro p hp
          rcases mem_alSet db.data uid _ p hp with hme | hme
          · rw [hme]
            exact hstrNew
          · exact hstr p hme
        · intro f si hsi
          rw [alGet_indexesMap] at hsi
          rcases he : alGet db.indexes f with _ | e
          · rw [he] at hsi
            cases hsi
          · rw [he] at hsi
            cases e with
            | single si0 =>
                simp [entryUpdate] at hsi
                obtain ⟨h1, h2⟩ := hidx f si0 he
                rw [← hsi]
                refine ⟨by rw [sIndexUpdate_field]; exact h1, ?_⟩
                exact sInv_update db.data si0 uid oldDoc patch h2 hold hstrOld hstrNew
            | comp ci =>
                simp [entryUpdate] at hsi
  | opDelete did =>
      rcases dbDelete_cases db did with ⟨hc, _⟩ | ⟨doc, hdoc, hc⟩
      · rw [runOp, hc]
        exact ⟨hnd, hstr, hidx⟩
      · rw [runOp, hc]
        refine ⟨nodupKeys_alErase db.data did hnd, ?_, ?_⟩
        · intro p hp
          exact hstr p (mem_alErase db.data did p hp)
        · intro f si hsi
          rw [alGet_indexesMap] at hsi
          rcases he : alGet db.indexes f with _ | e
          · rw [he] at hsi
            cases hsi
          · rw [he] at hsi
            cases e with
            | single si0 =>
                simp [entryRemove] at hsi
                obtain ⟨h1, h2⟩ := hidx f si0 he
                rw [← hsi]
                refine ⟨by rw [sIndexRemove_field]; exact h1, ?_⟩
                exact sInv_delete db.data si0 did doc hnd h2 hdoc
            | comp ci =>
                simp [entryRemove] at hsi
  | opCreateIndex f0 =>
      show C2Inv (dbCreateIndex db f0)
      rcases he : alGet db.indexes f0 with _ | e
      · have hc : dbCreateIndex db f0 = DB.mk db.data
            (db.indexes ++ [(f0, .single (buildSIndex f0 db.data))])
            db.docCount db.dataFile db.wal db.primaryKey := by
          unfold dbCreateIndex
          rw [he]
        rw [hc]
        refine ⟨hnd, hstr, ?_⟩
        intro f si hsi
        simp only at hsi
        rw [alGet_append] at hsi
        rcases hf : alGet db.indexes f with _ | e'
        · rw [hf] at hsi
          by_cases hff : f = f0
          · subst hff
            simp [alGet] at hsi
            rw [← hsi]
            exact ⟨buildSIndex_field f db.data, sInv_build f db.data hnd hstr⟩
          · simp [alGet, hff] at hsi
        · rw [hf] at hsi
          simp only at hsi
          cases hsi
          exact hidx f si hf
      · have hc : dbCreateIndex db f0 = db := by
          unfold dbCreateIndex
          rw [he]
        rw [hc]
        exact ⟨hnd, hstr, hidx⟩
  | opCreateCompositeIndex fs =>
      show C2Inv (dbCreateCompositeIndex db fs)
      rcases he : alGet db.indexes (String.intercalate "-" fs) with _ | e
      · have hc : dbCreateCompositeIndex db fs = DB.mk db.data
            (db.indexes ++
              [(String.intercalate "-" fs, .comp (buildCIndex fs db.data))])
            db.docCount db.dataFile db.wal db.primaryKey := by
          simp only [dbCreateCompositeIndex, he]
        rw [hc]
        refine ⟨hnd, hstr, ?_⟩
        intro f si hsi
        simp only at hsi
        rw [alGet_append] at hsi
        rcases hf : alGet db.indexes f with _ | e'
        · rw [hf] at hsi
          simp only at hsi
          by_cases hff : f = String.intercalate "-" fs
          · subst hff
            simp [alGet] at hsi
          · simp [alGet, hff] at hsi
        · rw [hf] at hsi
          simp only at hsi
          cases hsi
          exact hidx f si hf
      · have hc : dbCreateCompositeIndex db fs = db := by
          simp only [dbCreateCompositeIndex, he]
        rw [hc]
        exact ⟨hnd, hstr, hidx⟩

theorem foldl_C2Inv (ops : List Op) :
    ∀ db : DB, C2Inv db → ops.all allStrOp = true → C2Inv (ops.foldl runOp db) := by
  induction ops with
  | nil => intro db h _; exact h
  | cons op rest ih =>
      intro db h hall
      simp only [List.all_cons, Bool.and_eq_true] at hall
      exact ih (runOp db op) (runOp_C2Inv db op h hall.1) hall.2

theorem emptyDB_C2Inv (pk : String) : C2Inv (emptyDB pk) := by
  refine ⟨by simp [emptyDB], by simp [emptyDB], ?_⟩
  intro f si hsi
  simp [emptyDB, alGet] at hsi

/-- C2, counterexample.  The claim states that after every operation
sequence each stored document's id lies in exactly the bucket keyed by its
current field value.  For numeric fields, `indexDocument` keys the bucket
by the COERCED value (float64(30)), while `updateIndex` removes by the RAW
old value (int(30)) — a different map key — so after insert and update the
id is still in the stale float64(30) bucket, which is not keyed by the
current value int(31). -/
theorem c2_index_invariant_counterexample :
    dbGet (runOps "id" [.opCreateIndex "age",
        .opInsert [("id", gStr "1"), ("age", gInt 30)],
        .opUpdate "1" [("age", gInt 31)]]) "1"
      = some [("id", gStr "1"), ("age", gInt 31)] ∧
    singleBucketMem (runOps "id" [.opCreateIndex "age",
        .opInsert [("id", gStr "1"), ("age", gInt 30)],
        .opUpdate "1" [("age", gInt 31)]]) "age" (gFloat64 30) "1" = true ∧
    (gFloat64 30 : GoValue) ≠ gInt 31 ∧
    singleBucketMem (runOps "id" [.opCreateIndex "age",
        .opInsert [("id", gStr "1"), ("age", gInt 30)],
        .opUpdate "1" [("age", gInt 31)]]) "age" (gInt 31) "1" = true := by
  decide

/-- C2, amended.  For operation sequences in which every inserted document
and every update patch carries only STRING field values — where the
coerced bucket key coincides with the raw value the update and delete
paths use — the claimed invariant holds: after any sequence, for every
registered single-field index and stored document containing the indexed
field, the id is in the bucket keyed by the document's current value of
that field, and in no other bucket of that index. -/
theorem c2_index_invariant_amended (pk : String) (ops : List Op)
    (hstr : ops.all allStrOp = true) (f id : String) (d : Doc) (v : GoValue)
    (hidx : hasSingleIndex (runOps pk ops) f = true)
    (hget : dbGet (runOps pk ops) id = some d)
    (hval : alGet d f = some v) :
    singleBucketMem (runOps pk ops) f v id = true ∧
    ∀ k, singleBucketMem (runOps pk ops) f k id = true → k = v := by
  have hinv : C2Inv (runOps pk ops) :=
    foldl_C2Inv ops (emptyDB pk) (emptyDB_C2Inv pk) hstr
  unfold hasSingleIndex at hidx
  unfold singleBucketMem
  rcases he : alGet (runOps pk ops).indexes f with _ | e
  · rw [he] at hidx
    cases hidx
  · rw [he] at hidx
    cases e with
    | comp ci => cases hidx
    | single si =>
        obtain ⟨hfield, hsinv⟩ := hinv.2.2 f si he
        have hval' : alGet d si.field = some v := by rw [hfield]; exact hval
        constructor
        · exact (hsinv id v).mpr ⟨d, hget, hval'⟩
        · intro k hk
          rcases (hsinv id k).mp hk with ⟨d', hd', hk'⟩
          have hget2 : alGet (runOps pk ops).data id = some d := hget
          rw [hget2] at hd'
          cases hd'
          rw [hval'] at hk'
          exact (Option.some_inj.mp hk').symm

/-- C2, witness: a run with a created index, two inserts, an update and a
delete over string-valued fields; the remaining document's id is found in
the bucket of its current value. -/
theorem c2_index_invariant_amended_witness :
    singleBucketMem (runOps "id" [.opCreateIndex "name",
        .opInsert [("id", gStr "1"), ("name", gStr "a")],
        .opInsert [("id", gStr "2"), ("name", gStr "a")],
        .opUpdate "1" [("name", gStr "b")],
        .opDelete "2"]) "name" (gStr "b") "1" = true :=
  (c2_index_invariant_amended "id" [.opCreateIndex "name",
      .opInsert [("id", gStr "1"), ("name", gStr "a")],
      .opInsert [("id", gStr "2"), ("name", gStr "a")],
      .opUpdate "1" [("name", gStr "b")],
      .opDelete "2"] (by decide) "name" "1" [("id", gStr "1"), ("name", gStr "b")]
    (gStr "b") (by decide) (by decide) (by decide)).1

/-! ## Claim C4: RangeQuery with and without an index -/

/-- Values of the Go int family. -/
def intOfVal : GoValue → Option Int
  | gInt n => some n
  | gInt64 n => some n
  | _ => none

/-- The field, when present, holds a Go int. -/
def fieldIntOk (f : String) (d : Doc) : Bool :=
  match alGet d f with
  | some v => (intOfVal v).isSome
  | none => true

theorem cmpInt_nonneg_iff (a b : Int) : cmpInt a b ≥ 0 ↔ b ≤ a := by
  unfold cmpInt
  by_cases h : a < b
  · rw [if_pos h]
    omega
  · rw [if_neg h]
    by_cases h2 : a > b
    · rw [if_pos h2]
      omega
    · rw [if_neg h2]
      omega

theorem cmpInt_nonpos_iff (a b : Int) : cmpInt a b ≤ 0 ↔ a ≤ b := by
  unfold cmpInt
  by_cases h : a < b
  · rw [if_pos h]
    omega
  · rw [if_neg h]
    by_cases h2 : a > b
    · rw [if_pos h2]
      omega
    · rw [if_neg h2]
      omega

theorem cmpRat_nonneg_iff (a b : Rat) : cmpRat a b ≥ 0 ↔ b ≤ a := by
  unfold cmpRat
  by_cases h : a < b
  · rw [if_pos h]
    constructor
    · intro hc
      exact absurd hc (by norm_num)
    · intro hc
      exact absurd (lt_of_lt_of_le h hc) (lt_irrefl a)
  · rw [if_neg h]
    by_cases h2 : a > b
    · rw [if_pos h2]
      constructor
      · intro _
        exact le_of_lt h2
      · intro _
        norm_num
    · rw [if_neg h2]
      constructor
      · intro _
        exact le_of_not_lt h
      · intro _
        exact le_refl 0

theorem cmpRat_nonpos_iff (a b : Rat) : cmpRat a b ≤ 0 ↔ a ≤ b := by
  unfold cmpRat
  by_cases h : a < b
  · rw [if_pos h]
    constructor
    · intro _
      exact le_of_lt h
    · intro _
      norm_num
  · rw [if_neg h]
    by_cases h2 : a > b
    · rw [if_pos h2]
      constructor
      · intro hc
        exact absurd hc (by norm_num)
      · intro hc
        exact absurd (lt_of_lt_of_le h2 hc) (lt_irrefl b)
    · rw [if_neg h2]
      constructor
      · intro _
        exact le_of_not_lt h2
      · intro _
        exact le_refl 0

theorem rangeCond_int64 (n m M : Int) :
    rangeCond (gInt64 n) (gInt64 m) (gInt64 M) = some (decide (m ≤ n ∧ n ≤ M)) := by
  show (if cmpInt n m ≥ 0 then some (decide (cmpInt n M ≤ 0)) else some false) = _
  by_cases h1 : cmpInt n m ≥ 0
  · rw [if_pos h1]
    congr 1
    rw [decide_eq_decide]
    rw [cmpInt_nonpos_iff]
    have := (cmpInt_nonneg_iff n m).mp h1
    constructor
    · exact fun h => ⟨this, h⟩
    · exact fun h => h.2
  · rw [if_neg h1]
    congr 1
    have hnot : ¬m ≤ n := fun h => h1 ((cmpInt_nonneg_iff n m).mpr h)
    simp [hnot]

theorem rangeCond_float_int (p : Rat) (m M : Int) :
    rangeCond (gFloat64 p) (gInt64 m) (gInt64 M)
      = some (decide ((m : Rat) ≤ p ∧ p ≤ (M : Rat))) := by
  show (if cmpRat p (m : Rat) ≥ 0 then some (decide (cmpRat p (M : Rat) ≤ 0))
      else some false) = _
  by_cases h1 : cmpRat p (m : Rat) ≥ 0
  · rw [if_pos h1]
    congr 1
    rw [decide_eq_decide]
    rw [cmpRat_nonpos_iff]
    have := (cmpRat_nonneg_iff p (m : Rat)).mp h1
    constructor
    · exact fun h => ⟨this, h⟩
    · exact fun h => h.2
  · rw [if_neg h1]
    congr 1
    have hnot : ¬(m : Rat) ≤ p := fun h => h1 ((cmpRat_nonneg_iff p (m : Rat)).mpr h)
    simp [hnot]

theorem rqScan_cons (mi Ma : GoValue) (f id0 : String) (d0 : Doc)
    (rest : List (String × Doc)) :
    rqScan mi Ma f ((id0, d0) :: rest) =
      match alGet d0 f with
      | none => rqScan mi Ma f rest
      | some v =>
          match rangeCond (compInj (toComparableValue v)) mi Ma with
          | none => none
          | some true =>
              match rqScan mi Ma f rest with
              | none => none
              | some docs => some (d0 :: docs)
          | some false => rqScan mi Ma f rest := rfl

theorem rqScan_int_char (f : String) (m M : Int) :
    ∀ data : List (String × Doc),
      (∀ p ∈ data, fieldIntOk f p.2 = true) →
      ∃ r, rqScan (gInt64 m) (gInt64 M) f data = some r ∧
        ∀ d, d ∈ r ↔ ∃ p, p ∈ data ∧ p.2 = d ∧
          ∃ v n, alGet d f = some v ∧ intOfVal v = some n ∧ m ≤ n ∧ n ≤ M := by
  intro data
  induction data with
  | nil =>
      intro _
      exact ⟨[], rfl, by simp⟩
  | cons hd rest ih =>
      obtain ⟨id0, d0⟩ := hd
      intro hall
      have hd0 : fieldIntOk f d0 = true := hall (id0, d0) (by simp)
      obtain ⟨r, hr, hmem⟩ := ih (fun p hp => hall p (by simp [hp]))
      rcases hf : alGet d0 f with _ | v
      · refine ⟨r, ?_, ?_⟩
        · simp only [rqScan_cons, hf]
          exact hr
        · intro d
          rw [hmem d]
          constructor
          · rintro ⟨p, hp, hpd, hcond⟩
            exact ⟨p, by simp [hp], hpd, hcond⟩
          · rintro ⟨p, hp, hpd, v, n, hv, hn, hrange⟩
            rcases List.mem_cons.mp hp with hp0 | hp0
            · rw [hp0] at hpd
              rw [← hpd] at hv
              rw [hf] at hv
              cases hv
            · exact ⟨p, hp0, hpd, v, n, hv, hn, hrange⟩
      · have hd0' : (intOfVal v).isSome = true := by
          unfold fieldIntOk at hd0
          rw [hf] at hd0
          exact hd0
        rcases hn0 : intOfVal v with _ | n0
        · rw [hn0] at hd0'
          simp at hd0'
        · have hcoerce : compInj (toComparableValue v) = gInt64 n0 := by
            cases v <;> simp [intOfVal] at hn0 <;> simp [compInj, toComparableValue, hn0]
          have hcond : rangeCond (compInj (toComparableValue v)) (gInt64 m) (gInt64 M)
              = some (decide (m ≤ n0 ∧ n0 ≤ M)) := by
            rw [hcoerce]
            exact rangeCond_int64 n0 m M
          by_cases hin : m ≤ n0 ∧ n0 ≤ M
          · refine ⟨d0 :: r, ?_, ?_⟩
            · simp only [rqScan_cons, hf, hcond, decide_eq_true hin, hr]
            · intro d
              simp only [List.mem_cons]
              constructor
              · rintro (h | hdr)
                · exact ⟨(id0, d0), by simp, h.symm, v, n0,
                    by rw [h]; exact hf, hn0, hin.1, hin.2⟩
                · rcases (hmem d).mp hdr with ⟨p, hp, hpd, hcond'⟩
                  exact ⟨p, by simp [hp], hpd, hcond'⟩
              · rintro ⟨p, hp, hpd, v', n', hv', hn', hrange⟩
                rcases hp with hp0 | hp0
                · left
                  rw [hp0] at hpd
                  exact hpd.symm
                · right
                  exact (hmem d).mpr ⟨p, hp0, hpd, v', n', hv', hn', hrange⟩
          · refine ⟨r, ?_, ?_⟩
            · simp only [rqScan_cons, hf, hcond, decide_eq_false hin]
              exact hr
            · intro d
              rw [hmem d]
              constructor
              · rintro ⟨p, hp, hpd, hcond'⟩
                exact ⟨p, by simp [hp], hpd, hcond'⟩
              · rintro ⟨p, hp, hpd, v', n', hv', hn', hrange⟩
                rcases List.mem_cons.mp hp with hp0 | hp0
                · exfalso
                  rw [hp0] at hpd
                  rw [← hpd] at hv'
                  rw [hf] at hv'
                  cases hv'
                  rw [hn0] at hn'
                  cases hn'
                  exact hin ⟨hrange.1, hrange.2⟩
                · exact ⟨p, hp0, hpd, v', n', hv', hn', hrange⟩

theorem alGet_isSome_of_mem_keys {κ α : Type} [DecidableEq κ] (l : List (κ × α)) (k : κ)
    (h : k ∈ l.map Prod.fst) : (alGet l k).isSome = true := by
  induction l with
  | nil => simp at h
  | cons hd tl ih =>
      obtain ⟨k0, v0⟩ := hd
      by_cases hk : k = k0
      · subst hk
        simp [alGet]
      · simp only [List.map_cons, List.mem_cons] at h
        rcases h with h | h
        · exact absurd h hk
        · simp only [alGet, if_neg hk]
          exact ih h

theorem alGet_of_mem_nodup {κ α : Type} [DecidableEq κ] (l : List (κ × α))
    (hnd : (l.map Prod.fst).Nodup) (k : κ) (v : α) (h : (k, v) ∈ l) :
    alGet l k = some v := by
  induction l with
  | nil => simp at h
  | cons hd tl ih =>
      obtain ⟨k0, v0⟩ := hd
      simp only [List.map_cons, List.nodup_cons] at hnd
      rcases List.mem_cons.mp h with h1 | h1
      · obtain ⟨hk, hv⟩ := Prod.mk.injEq .. ▸ h1
        subst hk
        subst hv
        simp [alGet]
      · by_cases hk : k = k0
        · subst hk
          exact absurd (List.mem_map_of_mem Prod.fst h1) hnd.1
        · simp only [alGet, if_neg hk]
          exact ih hnd.2 h1

theorem mem_keys_bucketAdd {κ : Type} [DecidableEq κ] (vals : List (κ × List String))
    (k0 : κ) (id : String) (k : κ)
    (h : k ∈ (bucketAdd vals k0 id).map Prod.fst) :
    k ∈ vals.map Prod.fst ∨ k = k0 := by
  unfold bucketAdd at h
  rcases hg : alGet vals k0 with _ | ids
  · rw [hg] at h
    simp only [List.map_append, List.mem_append, List.map_cons, List.mem_cons] at h
    rcases h with h | h
    · exact Or.inl h
    · simp at h
      exact Or.inr h
  · rw [hg] at h
    exact mem_keys_alSet _ _ _ _ h

theorem nodupKeys_bucketAdd {κ : Type} [DecidableEq κ] (vals : List (κ × List String))
    (k : κ) (id : String) (h : (vals.map Prod.fst).Nodup) :
    ((bucketAdd vals k id).map Prod.fst).Nodup := by
  unfold bucketAdd
  rcases hg : alGet vals k with _ | ids
  · have hk : k ∉ vals.map Prod.fst := by
      intro hm
      have := alGet_isSome_of_mem_keys vals k hm
      rw [hg] at this
      simp at this
    rw [List.map_append]
    rw [List.nodup_append]
    refine ⟨h, by simp, ?_⟩
    intro x hx
    simp only [List.map_cons, List.map_nil, List.mem_singleton]
    intro hxk
    subst hxk
    exact hk hx
  · exact nodupKeys_alSet _ _ _ h

theorem buildFold_nodupKeys (l : List (String × Doc)) :
    ∀ start : SIndex, (start.values.map Prod.fst).Nodup →
      (((l.foldl (fun si kv => sIndexAdd kv.2 kv.1 si) start).values.map Prod.fst)).Nodup := by
  induction l with
  | nil => intro start h; exact h
  | cons hd tl ih =>
      intro start h
      simp only [List.foldl_cons]
      apply ih
      unfold sIndexAdd
      rcases hv : alGet hd.2 start.field with _ | v
      · exact h
      · exact nodupKeys_bucketAdd _ _ _ h

theorem buildFold_keys (f : String) :
    ∀ (l : List (String × Doc)) (start : SIndex), start.field = f →
      ∀ k, k ∈ ((l.foldl (fun si kv => sIndexAdd kv.2 kv.1 si) start).values.map Prod.fst) →
        k ∈ start.values.map Prod.fst ∨
          ∃ p, p ∈ l ∧ ∃ v, alGet p.2 f = some v ∧ k = indexKeyOf v := by
  intro l
  induction l with
  | nil => intro start _ k h; exact Or.inl h
  | cons hd tl ih =>
      intro start hf k h
      simp only [List.foldl_cons] at h
      rcases ih (sIndexAdd hd.2 hd.1 start) (by rw [sIndexAdd_field]; exact hf) k h
        with h1 | h1
      · unfold sIndexAdd at h1
        rw [hf] at h1
        rcases hv : alGet hd.2 f with _ | v
        · rw [hv] at h1
          exact Or.inl h1
        · rw [hv] at h1
          rcases mem_keys_bucketAdd _ _ _ _ h1 with h2 | h2
          · exact Or.inl h2
          · exact Or.inr ⟨hd, by simp, v, hv, h2⟩
      · obtain ⟨p, hp, hrest⟩ := h1
        exact Or.inr ⟨p, by simp [hp], hrest⟩

theorem rqBuckets_cons (db : DB) (mi Ma : GoValue) (k0 : GoValue) (ids0 : List String)
    (rest : List (GoValue × List String)) :
    rqBuckets db mi Ma ((k0, ids0) :: rest) =
      match rangeCond (compInj (toComparableValue k0)) mi Ma with
      | none => none
      | some true =>
          match rqBuckets db mi Ma rest with
          | none => none
          | some docs => some (ids0.filterMap (fun id => alGet db.data id) ++ docs)
      | some false => rqBuckets db mi Ma rest := rfl

theorem rqBuckets_int_char (db : DB) (m M : Int) :
    ∀ vals : List (GoValue × List String),
      (∀ k ∈ vals.map Prod.fst, ∃ q : Rat, k = gFloat64 q) →
      ∃ r, rqBuckets db (gInt64 m) (gInt64 M) vals = some r ∧
        ∀ d, d ∈ r ↔ ∃ k ids, (k, ids) ∈ vals ∧
          rangeCond (compInj (toComparableValue k)) (gInt64 m) (gInt64 M) = some true ∧
          ∃ id, id ∈ ids ∧ alGet db.data id = some d := by
  intro vals
  induction vals with
  | nil =>
      intro _
      exact ⟨[], rfl, by simp⟩
  | cons hd rest ih =>
      obtain ⟨k0, ids0⟩ := hd
      intro hall
      obtain ⟨q, hq⟩ := hall k0 (by simp)
      subst hq
      obtain ⟨r, hr, hmem⟩ := ih (fun k hk => hall k (by simp [hk]))
      have hcond : rangeCond (compInj (toComparableValue (gFloat64 q)))
          (gInt64 m) (gInt64 M) = some (decide ((m : Rat) ≤ q ∧ q ≤ (M : Rat))) :=
        rangeCond_float_int q m M
      by_cases hin : (m : Rat) ≤ q ∧ q ≤ (M : Rat)
      · refine ⟨ids0.filterMap (fun id => alGet db.data id) ++ r, ?_, ?_⟩
        · simp only [rqBuckets_cons, hcond, decide_eq_true hin, hr]
        · intro d
          simp only [List.mem_append, List.mem_filterMap]
          constructor
          · rintro (⟨id, hid, hd⟩ | hdr)
            · exact ⟨gFloat64 q, ids0, by simp,
                by rw [hcond, decide_eq_true hin], id, hid, hd⟩
            · obtain ⟨k, ids, htl, hc, hex⟩ := (hmem d).mp hdr
              exact ⟨k, ids, List.mem_cons_of_mem _ htl, hc, hex⟩
          · rintro ⟨k, ids, hmemv, hc, id, hid, hd⟩
            rcases List.mem_cons.mp hmemv with h1 | h1
            · obtain ⟨hk, hids⟩ := Prod.mk.injEq .. ▸ h1
              subst hids
              exact Or.inl ⟨id, hid, hd⟩
            · exact Or.inr ((hmem d).mpr ⟨k, ids, h1, hc, id, hid, hd⟩)
      · refine ⟨r, ?_, ?_⟩
        · simp only [rqBuckets_cons, hcond, decide_eq_false hin]
          exact hr
        · intro d
          rw [hmem d]
          constructor
          · rintro ⟨k, ids, htl, hc, hex⟩
            exact ⟨k, ids, List.mem_cons_of_mem _ htl, hc, hex⟩
          · rintro ⟨k, ids, hmemv, hc, hex⟩
            rcases List.mem_cons.mp hmemv with h1 | h1
            · exfalso
              obtain ⟨hk, hids⟩ := Prod.mk.injEq .. ▸ h1
              subst hk
              rw [hcond, decide_eq_false hin] at hc
              cases hc
            · exact ⟨k, ids, h1, hc, hex⟩

def ratSeventeenTenths : Rat := ⟨17, 10, by decide, by decide⟩

def ratSixFifths : Rat := ⟨6, 5, by decide, by decide⟩

theorem runOp_nodupKeys (db : DB) (op : Op) (h : (db.data.map Prod.fst).Nodup) :
    (((runOp db op).data.map Prod.fst)).Nodup := by
  cases op with
  | opInsert d =>
      show (((insertDoc db d true).2.data.map Prod.fst)).Nodup
      rcases insertDoc_cases db d with ⟨_, hc⟩ | ⟨pkv, _, _, _, hc⟩
      · rw [hc]
        exact h
      · rw [hc]
        exact nodupKeys_alSet _ _ _ h
  | opUpdate id p =>
      show (((dbUpdate db id p).2.data.map Prod.fst)).Nodup
      rcases dbUpdate_cases db id p with ⟨hc, _⟩ | ⟨old, _, hc⟩
      · rw [hc]
        exact h
      · rw [hc]
        exact nodupKeys_alSet _ _ _ h
  | opDelete id =>
      show (((dbDelete db id).2.data.map Prod.fst)).Nodup
      rcases dbDelete_cases db id with ⟨hc, _⟩ | ⟨doc, _, hc⟩
      · rw [hc]
        exact h
      · rw [hc]
        exact nodupKeys_alErase _ _ h
  | opCreateIndex f =>
      show (((dbCreateIndex db f).data.map Prod.fst)).Nodup
      rw [(dbCreateIndex_data db f).1]
      exact h
  | opCreateCompositeIndex fs =>
      show (((dbCreateCompositeIndex db fs).data.map Prod.fst)).Nodup
      rw [(dbCreateCompositeIndex_data db fs).1]
      exact h

theorem foldl_nodupKeys (ops : List Op) :
    ∀ db : DB, (db.data.map Prod.fst).Nodup →
      (((ops.foldl runOp db).data.map Prod.fst)).Nodup := by
  induction ops with
  | nil => intro db h; exact h
  | cons op tl ih =>
      intro db h
      simp only [List.foldl_cons]
      exact ih _ (runOp_nodupKeys db op h)

theorem runOps_nodupKeys (pk : String) (ops : List Op) :
    (((runOps pk ops).data.map Prod.fst)).Nodup :=
  foldl_nodupKeys ops (emptyDB pk) (by simp [emptyDB])

theorem insertRun_indexes (docs : List Doc) :
    ∀ db : DB, db.indexes = [] →
      ((docs.map Op.opInsert).foldl runOp db).indexes = [] := by
  induction docs with
  | nil => intro db h; exact h
  | cons d tl ih =>
      intro db h
      simp only [List.map_cons, List.foldl_cons]
      apply ih
      show ((insertDoc db d true).2).indexes = []
      rcases insertDoc_cases db d with ⟨_, hc⟩ | ⟨pkv, _, _, _, hc⟩
      · rw [hc]
        exact h
      · rw [hc]
        show indexesMap (entryInsert d (goSprint pkv)) db.indexes = []
        rw [h]
        rfl

theorem insertRun_fieldIntOk (f : String) (docs : List Doc) :
    ∀ db : DB,
      (∀ p ∈ db.data, fieldIntOk f p.2 = true) →
      (∀ d ∈ docs, fieldIntOk f d = true) →
      ∀ p ∈ ((docs.map Op.opInsert).foldl runOp db).data, fieldIntOk f p.2 = true := by
  induction docs with
  | nil => intro db h _ p hp; exact h p hp
  | cons d tl ih =>
      intro db h hdocs
      simp only [List.map_cons, List.foldl_cons]
      apply ih
      · intro p hp
        rw [show runOp db (.opInsert d) = (insertDoc db d true).2 from rfl] at hp
        rcases insertDoc_cases db d with ⟨_, hc⟩ | ⟨pkv, _, _, _, hc⟩
        · rw [hc] at hp
          exact h p hp
        · rw [hc] at hp
          simp only at hp
          rcases mem_alSet _ _ _ _ hp with h1 | h1
          · rw [h1]
            exact hdocs d (by simp)
          · exact h p h1
      · intro d' hd'
        exact hdocs d' (by simp [hd'])

/-- C4 counterexample: one document with integer `age = 1`, range bounds the
floats 1.5 and 1.7.  Through the index (bucket key `float64(1)`, float-first
compare) the document is correctly outside the range and the result is empty;
the full scan coerces the stored int to int64 and `compareValues` then
TRUNCATES each float bound toward zero to 1, so the scan returns the
document — a different result set.  Moreover with min 1.5 > max 1.2 the scan
still returns the document, refuting the empty-range clause. -/
theorem c4_range_counterexample :
    dbRangeQuery (runOps "id" [.opInsert [("id", gStr "1"), ("age", gInt 1)],
        .opCreateIndex "age"]) "age" (gFloat64 ratThreeHalves)
      (gFloat64 ratSeventeenTenths) = some [] ∧
    dbRangeQuery (runOps "id" [.opInsert [("id", gStr "1"), ("age", gInt 1)]])
      "age" (gFloat64 ratThreeHalves) (gFloat64 ratSeventeenTenths)
      = some [[("id", gStr "1"), ("age", gInt 1)]] ∧
    dbRangeQuery (runOps "id" [.opInsert [("id", gStr "1"), ("age", gInt 1)]])
      "age" (gFloat64 ratThreeHalves) (gFloat64 ratSixFifths)
      = some [[("id", gStr "1"), ("age", gInt 1)]] := by
  refine ⟨by decide, by decide, by decide⟩

/-- C4 amended: over stores built by inserting documents whose indexed field,
when present, holds a Go int, and with int range bounds, `RangeQuery` through
a freshly created single-field index returns the same documents (as a set) as
the indexless full scan; neither panics; and both are empty when min > max. -/
theorem c4_range_amended (pk f : String) (docs : List Doc) (m M : Int)
    (hint : ∀ d ∈ docs, fieldIntOk f d = true) :
    ∃ r1 r2,
      dbRangeQuery (runOps pk (docs.map Op.opInsert ++ [Op.opCreateIndex f])) f
        (gInt m) (gInt M) = some r1 ∧
      dbRangeQuery (runOps pk (docs.map Op.opInsert)) f (gInt m) (gInt M)
        = some r2 ∧
      (∀ d, d ∈ r1 ↔ d ∈ r2) ∧
      (M < m → r1 = [] ∧ r2 = []) := by
  have hsplit : runOps pk (docs.map Op.opInsert ++ [Op.opCreateIndex f])
      = dbCreateIndex (runOps pk (docs.map Op.opInsert)) f := by
    unfold runOps
    rw [List.foldl_append]
    rfl
  set b := runOps pk (docs.map Op.opInsert) with hb
  have hnil : b.indexes = [] := insertRun_indexes docs (emptyDB pk) rfl
  have hnone : alGet b.indexes f = none := by
    rw [hnil]
    rfl
  have hnd : ((b.data.map Prod.fst)).Nodup := runOps_nodupKeys pk _
  have hiok : ∀ p ∈ b.data, fieldIntOk f p.2 = true :=
    insertRun_fieldIntOk f docs (emptyDB pk) (by intro p hp; simp [emptyDB] at hp) hint
  have hcr : dbCreateIndex b f = DB.mk b.data
      (b.indexes ++ [(f, .single (buildSIndex f b.data))]) b.docCount b.dataFile
      b.wal b.primaryKey := by
    unfold dbCreateIndex
    rw [hnone]
  have hidx : alGet (dbCreateIndex b f).indexes f
      = some (.single (buildSIndex f b.data)) := by
    rw [hcr]
    show alGet (b.indexes ++ [(f, .single (buildSIndex f b.data))]) f = _
    rw [hnil]
    simp [alGet]
  have hdata : (dbCreateIndex b f).data = b.data := (dbCreateIndex_data b f).1
  have hq1 : dbRangeQuery (dbCreateIndex b f) f (gInt m) (gInt M)
      = rqBuckets (dbCreateIndex b f) (gInt64 m) (gInt64 M)
          (buildSIndex f b.data).values := by
    show (match alGet (dbCreateIndex b f).indexes f with
      | some (.single si) =>
          rqBuckets (dbCreateIndex b f) (gInt64 m) (gInt64 M) si.values
      | some (.comp _) => some []
      | none => rqScan (gInt64 m) (gInt64 M) f (dbCreateIndex b f).data) = _
    rw [hidx]
  have hq2 : dbRangeQuery b f (gInt m) (gInt M)
      = rqScan (gInt64 m) (gInt64 M) f b.data := by
    show (match alGet b.indexes f with
      | some (.single si) => rqBuckets b (gInt64 m) (gInt64 M) si.values
      | some (.comp _) => some []
      | none => rqScan (gInt64 m) (gInt64 M) f b.data) = _
    rw [hnone]
  have hkeys : ∀ k ∈ (buildSIndex f b.data).values.map Prod.fst,
      ∃ q : Rat, k = gFloat64 q := by
    intro k hk
    rcases buildFold_keys f b.data (SIndex.mk f [] emptyTrieNode) rfl k hk with h1 | h1
    · simp at h1
    · obtain ⟨p, hp, v, hv, hkv⟩ := h1
      have hok := hiok p hp
      unfold fieldIntOk at hok
      rw [hv] at hok
      have hok2 : (intOfVal v).isSome = true := hok
      rcases hn : intOfVal v with _ | n
      · rw [hn] at hok2
        simp at hok2
      · refine ⟨(n : Rat), ?_⟩
        rw [hkv]
        cases v <;> simp [intOfVal] at hn <;> simp [indexKeyOf, hn]
  have hbnd : ((buildSIndex f b.data).values.map Prod.fst).Nodup :=
    buildFold_nodupKeys b.data (SIndex.mk f [] emptyTrieNode) (by simp)
  obtain ⟨r1, hr1, hmem1⟩ :=
    rqBuckets_int_char (dbCreateIndex b f) m M (buildSIndex f b.data).values hkeys
  obtain ⟨r2, hr2, hmem2⟩ := rqScan_int_char f m M b.data hiok
  have hfold := buildSIndex_fold_mem f b.data (SIndex.mk f [] emptyTrieNode) rfl hnd
  have hiff : ∀ d, d ∈ r1 ↔ d ∈ r2 := by
    intro d
    constructor
    · intro hd
      obtain ⟨k, ids, hkv, hc, id, hid, hget⟩ := (hmem1 d).mp hd
      rw [hdata] at hget
      have halg : alGet (buildSIndex f b.data).values k = some ids :=
        alGet_of_mem_nodup _ hbnd k ids hkv
      have hbm : bucketMem (buildSIndex f b.data).values k id = true := by
        unfold bucketMem
        rw [halg]
        exact decide_eq_true hid
      rcases (hfold id k).mp hbm with h0 | ⟨d', hd', v, hv, hkey⟩
      · simp [bucketMem, alGet] at h0
      · have hdd : d' = d := Option.some.inj (hd'.symm.trans hget)
        rw [hdd] at hv
        have hmemdoc : (id, d) ∈ b.data := alGet_mem _ _ _ hget
        have hok := hiok (id, d) hmemdoc
        unfold fieldIntOk at hok
        rw [hv] at hok
        have hok2 : (intOfVal v).isSome = true := hok
        rcases hn : intOfVal v with _ | n
        · rw [hn] at hok2
          simp at hok2
        · have hkf : indexKeyOf v = gFloat64 (n : Rat) := by
            cases v <;> simp [intOfVal] at hn <;> simp [indexKeyOf, hn]
          rw [hkey, hkf] at hc
          replace hc : rangeCond (gFloat64 (n : Rat)) (gInt64 m) (gInt64 M)
              = some true := hc
          rw [rangeCond_float_int] at hc
          have hP := of_decide_eq_true (Option.some.inj hc)
          refine (hmem2 d).mpr ⟨(id, d), hmemdoc, rfl, v, n, hv, hn,
            by exact_mod_cast hP.1, by exact_mod_cast hP.2⟩
    · intro hd
      obtain ⟨p, hp, hpd, v, n, hv, hn, hm1, hm2⟩ := (hmem2 d).mp hd
      have hget : alGet b.data p.1 = some d := by
        rw [← hpd]
        exact alGet_of_mem_nodup _ hnd p.1 p.2 (by rw [Prod.mk.eta]; exact hp)
      have hkf : indexKeyOf v = gFloat64 (n : Rat) := by
        cases v <;> simp [intOfVal] at hn <;> simp [indexKeyOf, hn]
      have hv' : alGet d f = some v := hv
      have hbm : bucketMem (buildSIndex f b.data).values (indexKeyOf v) p.1 = true :=
        (hfold p.1 (indexKeyOf v)).mpr (Or.inr ⟨d, hget, v, hv', rfl⟩)
      unfold bucketMem at hbm
      rcases halg : alGet (buildSIndex f b.data).values (indexKeyOf v) with _ | ids
      · rw [halg] at hbm
        cases hbm
      · rw [halg] at hbm
        have hid : p.1 ∈ ids := of_decide_eq_true hbm
        have hkv : (indexKeyOf v, ids) ∈ (buildSIndex f b.data).values :=
          alGet_mem _ _ _ halg
        have hcond : rangeCond (compInj (toComparableValue (indexKeyOf v)))
            (gInt64 m) (gInt64 M) = some true := by
          rw [hkf]
          show rangeCond (gFloat64 (n : Rat)) (gInt64 m) (gInt64 M) = some true
          rw [rangeCond_float_int]
          rw [decide_eq_true ⟨by exact_mod_cast hm1, by exact_mod_cast hm2⟩]
      -- membership in the indexed result
        exact (hmem1 d).mpr ⟨indexKeyOf v, ids, hkv, hcond, p.1, hid,
          by rw [hdata]; exact hget⟩
  refine ⟨r1, r2, by rw [hsplit, hq1]; exact hr1, by rw [hq2]; exact hr2, hiff, ?_⟩
  intro hMm
  have hr2nil : r2 = [] := by
    rw [List.eq_nil_iff_forall_not_mem]
    intro d hd
    obtain ⟨p, hp, hpd, v, n, hv, hn, hm1, hm2⟩ := (hmem2 d).mp hd
    omega
  refine ⟨?_, hr2nil⟩
  rw [List.eq_nil_iff_forall_not_mem]
  intro d hd
  have := (hiff d).mp hd
  rw [hr2nil] at this
  simp at this

/-- C4 witness: the amended equivalence applied to one stored document with
integer `age = 1` and the int bounds 1 and 2. -/
theorem c4_range_amended_witness :
    (∀ d ∈ [[("id", gStr "1"), ("age", gInt 1)]], fieldIntOk "age" d = true) ∧
    ∃ r1 r2,
      dbRangeQuery (runOps "id" ([[("id", gStr "1"), ("age", gInt 1)]].map
          Op.opInsert ++ [Op.opCreateIndex "age"])) "age" (gInt 1) (gInt 2)
        = some r1 ∧
      dbRangeQuery (runOps "id" ([[("id", gStr "1"), ("age", gInt 1)]].map
          Op.opInsert)) "age" (gInt 1) (gInt 2) = some r2 ∧
      (∀ d, d ∈ r1 ↔ d ∈ r2) ∧
      ((2 : Int) < 1 → r1 = [] ∧ r2 = []) :=
  ⟨by decide, c4_range_amended "id" "age" [[("id", gStr "1"), ("age", gInt 1)]]
    1 2 (by decide)⟩
